import Mathlib

/-!
# Verification of the qualia trust-and-transport core

A shallow embedding of the passport / DID / event-stream / middleware layers
of the repository, with theorems settling the frozen behavioural claims.

Modelling conventions:
* Byte strings (`Uint8Array`) are `List Nat` with an explicit `< 256` bound
  where it matters.
* Text strings are `List Nat` of character code points.  UTF-8 encoding
  (`TextEncoder`) is injective, so signing the code-point list is faithful
  for all equality/inequality reasoning about signed payloads.
* The external Ed25519 primitives (`@noble/ed25519`) are modelled
  symbolically: a genuine signature is a term recording the signed message
  and the signing key, and verification succeeds exactly on a genuine
  signature for the same message under the matching public key.  This is the
  standard ideal-signature abstraction; it is external library code, not
  repository code.
* The external RFC 8785 canonical-JSON encoder (`canonicalize`) is
  implemented concretely for the two record shapes the repository signs,
  with keys in sorted order and JCS string escaping.
-/

set_option linter.unusedVariables false
set_option maxRecDepth 100000

namespace Qualia

/-! ## Positional base-`b` digit strings

`digitsAux b fuel n` computes the big-endian base-`b` digits of `n`,
recursing on `fuel`; any `fuel` with `n < b ^ fuel` yields the canonical
digit string.  This backs the hex, decimal and base58 encodings used by the
repository's `utils.ts`, `did.ts` and canonical JSON. -/

def digitsAux (b : Nat) : Nat → Nat → List Nat
  | 0, _ => []
  | fuel + 1, n => if n = 0 then [] else digitsAux b fuel (n / b) ++ [n % b]

/-- Canonical big-endian digits of `n` in base `b` (empty for `n = 0`). -/
def natDigits (b n : Nat) : List Nat := digitsAux b n n

/-- Value of a big-endian digit string in base `b`. -/
def digitsVal (b : Nat) (ds : List Nat) : Nat := ds.foldl (fun a d => a * b + d) 0

/-- Head-digit-nonzero predicate: the canonical digit strings. -/
def HeadNZ (ds : List Nat) : Prop := ∀ d, ds.head? = some d → d ≠ 0

theorem digitsAux_zero (b fuel : Nat) : digitsAux b fuel 0 = [] := by
  cases fuel <;> rfl

theorem div_pow_lt {b f n : Nat} (hb : 2 ≤ b) (h : n < b ^ (f + 1)) : n / b < b ^ f := by
  have hb0 : 0 < b := by omega
  rw [Nat.div_lt_iff_lt_mul hb0]
  calc n < b ^ (f + 1) := h
    _ = b ^ f * b := by rw [pow_succ]

theorem lt_pow_self_of_two_le {b n : Nat} (hb : 2 ≤ b) : n < b ^ n :=
  lt_of_lt_of_le (Nat.lt_two_pow n) (Nat.pow_le_pow_left hb n)

theorem digitsAux_congr {b : Nat} (hb : 2 ≤ b) :
    ∀ f1 f2 n, n < b ^ f1 → n < b ^ f2 → digitsAux b f1 n = digitsAux b f2 n := by
  intro f1
  induction f1 with
  | zero =>
    intro f2 n h1 _
    have : n = 0 := by simpa using h1
    subst this
    simp [digitsAux_zero]
  | succ f ih =>
    intro f2 n h1 h2
    by_cases hn : n = 0
    · subst hn; simp [digitsAux_zero]
    · cases f2 with
      | zero =>
        exfalso
        have : n = 0 := by simpa using h2
        exact hn this
      | succ g =>
        simp only [digitsAux, if_neg hn]
        have e := ih g (n / b) (div_pow_lt hb h1) (div_pow_lt hb h2)
        rw [e]

theorem digitsAux_eq_natDigits {b f n : Nat} (hb : 2 ≤ b) (h : n < b ^ f) :
    digitsAux b f n = natDigits b n :=
  digitsAux_congr hb f n n h (lt_pow_self_of_two_le hb)

theorem natDigits_eq {b n : Nat} (hb : 2 ≤ b) :
    natDigits b n = if n = 0 then [] else natDigits b (n / b) ++ [n % b] := by
  by_cases hn : n = 0
  · subst hn; simp [natDigits, digitsAux_zero]
  · rw [if_neg hn]
    have hf : 1 ≤ n := Nat.one_le_iff_ne_zero.mpr hn
    obtain ⟨m, rfl⟩ : ∃ m, n = m + 1 := ⟨n - 1, by omega⟩
    show digitsAux b (m + 1) (m + 1) = _
    simp only [digitsAux, if_neg hn]
    congr 1
    exact digitsAux_eq_natDigits hb (div_pow_lt hb (lt_pow_self_of_two_le hb))

theorem digitsVal_append_single (b : Nat) (ds : List Nat) (d : Nat) :
    digitsVal b (ds ++ [d]) = digitsVal b ds * b + d := by
  simp [digitsVal, List.foldl_append]

theorem digitsVal_natDigits {b : Nat} (hb : 2 ≤ b) (n : Nat) :
    digitsVal b (natDigits b n) = n := by
  induction n using Nat.strong_induction_on with
  | _ n ih =>
    rw [natDigits_eq hb]
    by_cases hn : n = 0
    · subst hn; simp [digitsVal]
    · rw [if_neg hn, digitsVal_append_single]
      have hb0 : 0 < b := by omega
      have hdiv : n / b < n := Nat.div_lt_self (Nat.pos_of_ne_zero hn) (by omega)
      rw [ih (n / b) hdiv, Nat.mul_comm]
      exact Nat.div_add_mod n b

theorem natDigits_digit_lt {b : Nat} (hb : 2 ≤ b) (n : Nat) :
    ∀ d ∈ natDigits b n, d < b := by
  induction n using Nat.strong_induction_on with
  | _ n ih =>
    rw [natDigits_eq hb]
    by_cases hn : n = 0
    · subst hn; simp
    · rw [if_neg hn]
      intro d hd
      rcases List.mem_append.mp hd with h | h
      · exact ih (n / b) (Nat.div_lt_self (Nat.pos_of_ne_zero hn) (by omega)) d h
      · have : d = n % b := by simpa using h
        subst this
        exact Nat.mod_lt n (by omega)

theorem natDigits_ne_nil {b n : Nat} (hb : 2 ≤ b) (hn : n ≠ 0) :
    natDigits b n ≠ [] := by
  rw [natDigits_eq hb, if_neg hn]
  simp

theorem natDigits_headNZ {b : Nat} (hb : 2 ≤ b) (n : Nat) :
    HeadNZ (natDigits b n) := by
  induction n using Nat.strong_induction_on with
  | _ n ih =>
    intro d hd hdz
    rw [natDigits_eq hb] at hd
    by_cases hn : n = 0
    · subst hn; simp at hd
    · rw [if_neg hn] at hd
      by_cases hq : n / b = 0
      · rw [hq] at hd
        simp [natDigits, digitsAux_zero] at hd
        -- the single digit is n % b = n (since n < b), nonzero
        have hnb : n < b := by
          by_contra hge
          push_neg at hge
          have := Nat.div_le_div_right (c := b) hge
          rw [Nat.div_self (by omega)] at this
          omega
        rw [Nat.mod_eq_of_lt hnb] at hd
        exact hn (hd ▸ hdz ▸ rfl)
      · have hne := natDigits_ne_nil hb hq
        rw [List.head?_append_of_ne_nil _ hne] at hd
        exact ih (n / b) (Nat.div_lt_self (Nat.pos_of_ne_zero hn) (by omega)) d hd hdz

theorem foldl_val_ge (b : Nat) (hb : 1 ≤ b) (t : List Nat) :
    ∀ a, a ≤ t.foldl (fun x d => x * b + d) a := by
  induction t with
  | nil => intro a; exact Nat.le_refl a
  | cons x t ih =>
    intro a
    have h1 : a ≤ a * b + x := by
      have := Nat.le_mul_of_pos_right a hb
      omega
    exact le_trans h1 (ih (a * b + x))

theorem digitsVal_cons (b d : Nat) (t : List Nat) :
    digitsVal b (d :: t) = t.foldl (fun x e => x * b + e) d := by
  simp [digitsVal]

theorem digitsVal_pos {b : Nat} (hb : 1 ≤ b) {d : Nat} (hd : d ≠ 0) (t : List Nat) :
    1 ≤ digitsVal b (d :: t) := by
  rw [digitsVal_cons]
  exact le_trans (Nat.one_le_iff_ne_zero.mpr hd) (foldl_val_ge b hb t d)

theorem digitsVal_lt_pow {b : Nat} (hb : 1 ≤ b) (ds : List Nat)
    (h : ∀ d ∈ ds, d < b) : digitsVal b ds < b ^ ds.length := by
  induction ds using List.reverseRecOn with
  | nil => simp [digitsVal]
  | append_singleton t d ih =>
    rw [digitsVal_append_single]
    have hd : d < b := h d (by simp)
    have ht : digitsVal b t < b ^ t.length := ih (fun x hx => h x (by simp [hx]))
    have : (digitsVal b t + 1) * b ≤ b ^ t.length * b :=
      Nat.mul_le_mul_right b ht
    calc digitsVal b t * b + d < (digitsVal b t + 1) * b := by
          rw [Nat.add_mul, Nat.one_mul]; omega
      _ ≤ b ^ t.length * b := this
      _ = b ^ (t ++ [d]).length := by
          rw [List.length_append]
          simp [pow_succ]

theorem digitsVal_lower_bound {b : Nat} (hb : 1 ≤ b) (d : Nat) (t : List Nat) :
    d * b ^ t.length ≤ digitsVal b (d :: t) := by
  rw [digitsVal_cons]
  -- a * b ^ |t| ≤ foldl from a, by induction on t generalizing a
  suffices h : ∀ (t : List Nat) (a : Nat), a * b ^ t.length ≤ t.foldl (fun x e => x * b + e) a by
    exact h t d
  intro t
  induction t with
  | nil => intro a; simp
  | cons x t ih =>
    intro a
    have h1 : a * b ^ (x :: t).length ≤ (a * b + x) * b ^ t.length := by
      have : a * b ^ (t.length + 1) = (a * b) * b ^ t.length := by ring
      rw [List.length_cons, this]
      exact Nat.mul_le_mul_right _ (by omega)
    exact le_trans h1 (ih (a * b + x))

/-- Uniqueness: a digit string with digits `< b` and nonzero head is the
canonical digit string of its value. -/
theorem natDigits_digitsVal {b : Nat} (hb : 2 ≤ b) (ds : List Nat)
    (hlt : ∀ d ∈ ds, d < b) (hnz : HeadNZ ds) :
    natDigits b (digitsVal b ds) = ds := by
  induction ds using List.reverseRecOn with
  | nil => simp [digitsVal, natDigits, digitsAux_zero]
  | append_singleton t d ih =>
    rw [digitsVal_append_single]
    have hd : d < b := hlt d (by simp)
    have hb0 : 0 < b := by omega
    cases t with
    | nil =>
      have hdz : d ≠ 0 := hnz d (by simp)
      simp only [digitsVal, List.foldl_nil, Nat.zero_mul, Nat.zero_add]
      rw [natDigits_eq hb, if_neg hdz, Nat.div_eq_of_lt hd, Nat.mod_eq_of_lt hd]
      simp [natDigits, digitsAux_zero]
    | cons e t' =>
      have hez : e ≠ 0 := hnz e (by simp)
      have hm : 1 ≤ digitsVal b (e :: t') := digitsVal_pos (by omega) hez t'
      set m := digitsVal b (e :: t') with hmdef
      have hmn : m * b + d ≠ 0 := by
        have : 1 * b ≤ m * b := Nat.mul_le_mul_right b hm
        omega
      rw [natDigits_eq hb, if_neg hmn]
      have hdiv : (m * b + d) / b = m := by
        rw [Nat.mul_comm m b, Nat.mul_add_div hb0, Nat.div_eq_of_lt hd, Nat.add_zero]
      have hmod : (m * b + d) % b = d := by
        rw [Nat.mul_comm m b, Nat.mul_add_mod, Nat.mod_eq_of_lt hd]
      rw [hdiv, hmod]
      congr 1
      have hlt' : ∀ x ∈ e :: t', x < b := by
        intro x hx
        apply hlt x
        rcases List.mem_cons.mp hx with h | h
        · simp [h]
        · simp [List.mem_cons, List.mem_append, h]
      have hnz' : HeadNZ (e :: t') := by
        intro d' hd'
        apply hnz d'
        simpa using hd'
      exact ih hlt' hnz'

theorem natDigits_length_ge {b k n : Nat} (hb : 2 ≤ b) (h : b ^ k ≤ n) :
    k < (natDigits b n).length := by
  have hval : digitsVal b (natDigits b n) = n := digitsVal_natDigits hb n
  have hlt : n < b ^ (natDigits b n).length := by
    have h2 := digitsVal_lt_pow (b := b) (by omega) (natDigits b n) (natDigits_digit_lt hb n)
    rw [hval] at h2
    exact h2
  have : b ^ k < b ^ (natDigits b n).length := lt_of_le_of_lt h hlt
  exact (Nat.pow_lt_pow_iff_right (by omega)).mp this

/-! ## Hex encoding (`packages/passport/src/utils.ts`)

`toHex` maps each byte to two lowercase hex characters; `fromHex` rejects
odd-length input and non-hex characters (modelled by `none` in place of the
thrown `Error`), accepting both cases as the source's `/^[0-9a-f]*$/i` and
`parseInt(_, 16)` do. -/

/-- Lowercase hex character (code point) of a digit value `< 16`. -/
def hexChar (d : Nat) : Nat := if d < 10 then 48 + d else 87 + d

/-- Hex digit value of a character code; upper or lower case. -/
def hexVal (c : Nat) : Option Nat :=
  if 48 ≤ c ∧ c ≤ 57 then some (c - 48)
  else if 97 ≤ c ∧ c ≤ 102 then some (c - 87)
  else if 65 ≤ c ∧ c ≤ 70 then some (c - 55)
  else none

/-- `toHex(bytes)`: lowercase hex string of a byte array. -/
def toHex : List Nat → List Nat
  | [] => []
  | b :: t => hexChar (b / 16) :: hexChar (b % 16) :: toHex t

/-- `fromHex(hex)`: byte array of a hex string; `none` models the throw. -/
def fromHex : List Nat → Option (List Nat)
  | [] => some []
  | [_] => none
  | c1 :: c2 :: t =>
    match hexVal c1, hexVal c2, fromHex t with
    | some h, some l, some bs => some ((h * 16 + l) :: bs)
    | _, _, _ => none

/-- Character class `[0-9a-f]` (lowercase hex), as in the verification
regexes `^[0-9a-f]{64}$` and `^[0-9a-f]{128}$`. -/
def isHexLower (c : Nat) : Bool := (48 ≤ c && c ≤ 57) || (97 ≤ c && c ≤ 102)

/-- The check `^[0-9a-f]{n}$` on a string. -/
def isHexLowerLen (s : List Nat) (n : Nat) : Bool := s.length == n && s.all isHexLower

theorem hexVal_hexChar : ∀ d < 16, hexVal (hexChar d) = some d := by decide

theorem isHexLower_hexChar : ∀ d < 16, isHexLower (hexChar d) = true := by decide

theorem fromHex_toHex_roundtrip (bs : List Nat) (h : ∀ b ∈ bs, b < 256) :
    fromHex (toHex bs) = some bs := by
  induction bs with
  | nil => rfl
  | cons b t ih =>
    have hb : b < 256 := h b (by simp)
    have h1 : b / 16 < 16 := by omega
    have h2 : b % 16 < 16 := Nat.mod_lt b (by omega)
    show fromHex (hexChar (b / 16) :: hexChar (b % 16) :: toHex t) = _
    rw [fromHex, hexVal_hexChar _ h1, hexVal_hexChar _ h2, ih (fun x hx => h x (by simp [hx]))]
    show some ((b / 16 * 16 + b % 16) :: t) = some (b :: t)
    have : b / 16 * 16 + b % 16 = b := by
      rw [Nat.mul_comm]
      exact Nat.div_add_mod b 16
    rw [this]

theorem hexChar_of_isHexLower {c : Nat} (h : isHexLower c = true) :
    ∃ v, hexVal c = some v ∧ v < 16 ∧ hexChar v = c := by
  have h' : (48 ≤ c ∧ c ≤ 57) ∨ (97 ≤ c ∧ c ≤ 102) := by
    simp only [isHexLower, Bool.or_eq_true, Bool.and_eq_true, decide_eq_true_eq] at h
    exact h
  rcases h' with ⟨h1, h2⟩ | ⟨h1, h2⟩
  · refine ⟨c - 48, ?_, by omega, ?_⟩
    · simp [hexVal, h1, h2]
    · simp only [hexChar]
      rw [if_pos (by omega)]
      omega
  · refine ⟨c - 87, ?_, by omega, ?_⟩
    · have : ¬(48 ≤ c ∧ c ≤ 57) := by omega
      simp [hexVal, this, h1, h2]
    · simp only [hexChar]
      rw [if_neg (by omega)]
      omega

theorem toHex_fromHex : ∀ (s bs : List Nat), s.all isHexLower = true →
    fromHex s = some bs → toHex bs = s
  | [], bs => by
    intro _ h
    simp [fromHex] at h
    subst h
    rfl
  | [c], bs => by
    intro _ h
    simp [fromHex] at h
  | c1 :: c2 :: t, bs => by
    intro hall h
    have hc1 : isHexLower c1 = true := by
      rw [List.all_eq_true] at hall; exact hall c1 (by simp)
    have hc2 : isHexLower c2 = true := by
      rw [List.all_eq_true] at hall; exact hall c2 (by simp)
    have ht : t.all isHexLower = true := by
      rw [List.all_eq_true] at hall ⊢
      intro x hx
      exact hall x (by simp [hx])
    obtain ⟨v1, hv1, hv1lt, hb1⟩ := hexChar_of_isHexLower hc1
    obtain ⟨v2, hv2, hv2lt, hb2⟩ := hexChar_of_isHexLower hc2
    rw [fromHex, hv1, hv2] at h
    cases hrec : fromHex t with
    | none => rw [hrec] at h; cases h
    | some bs' =>
      rw [hrec] at h
      cases h
      show toHex ((v1 * 16 + v2) :: bs') = _
      rw [toHex]
      have e1 : (v1 * 16 + v2) / 16 = v1 := by
        rw [Nat.mul_comm v1 16, Nat.mul_add_div (by omega), Nat.div_eq_of_lt hv2lt, Nat.add_zero]
      have e2 : (v1 * 16 + v2) % 16 = v2 := by
        rw [Nat.mul_comm v1 16, Nat.mul_add_mod, Nat.mod_eq_of_lt hv2lt]
      rw [e1, e2, hb1, hb2, toHex_fromHex t bs' ht hrec]

theorem toHex_length (bs : List Nat) : (toHex bs).length = 2 * bs.length := by
  induction bs with
  | nil => rfl
  | cons b t ih =>
    show (hexChar (b / 16) :: hexChar (b % 16) :: toHex t).length = _
    simp [ih]
    omega

theorem toHex_mem_lower : ∀ (bs : List Nat), (∀ b ∈ bs, b < 256) →
    ∀ x ∈ toHex bs, isHexLower x = true := by
  intro bs
  induction bs with
  | nil => intro _ x hx; simp [toHex] at hx
  | cons b t ih =>
    intro h x hx
    have hb : b < 256 := h b (by simp)
    have e : toHex (b :: t) = hexChar (b / 16) :: hexChar (b % 16) :: toHex t := rfl
    rw [e] at hx
    rcases List.mem_cons.mp hx with rfl | hx
    · exact isHexLower_hexChar _ (by omega)
    rcases List.mem_cons.mp hx with rfl | hx
    · exact isHexLower_hexChar _ (Nat.mod_lt b (by omega))
    · exact ih (fun y hy => h y (by simp [hy])) x hx

theorem toHex_all_lower (bs : List Nat) (h : ∀ b ∈ bs, b < 256) :
    (toHex bs).all isHexLower = true := by
  rw [List.all_eq_true]
  exact toHex_mem_lower bs h

theorem toHex_injective {bs1 bs2 : List Nat} (h1 : ∀ b ∈ bs1, b < 256)
    (h2 : ∀ b ∈ bs2, b < 256) (h : toHex bs1 = toHex bs2) : bs1 = bs2 := by
  have e1 := fromHex_toHex_roundtrip bs1 h1
  have e2 := fromHex_toHex_roundtrip bs2 h2
  rw [h, e2] at e1
  exact (Option.some_inj.mp e1).symm

/-! ## base58btc (`@scure/base`, as used by `packages/passport/src/did.ts`)

Standard base58btc: each leading `0x00` byte becomes a leading `'1'`; the
remaining value is written big-endian over the 58-character alphabet. -/

/-- The base58btc alphabet `123456789ABCDEFGHJKLMNPQRSTUVWXYZabcdefghijkmnopqrstuvwxyz`
as character codes. -/
def b58Alphabet : List Nat :=
  [49, 50, 51, 52, 53, 54, 55, 56, 57,
   65, 66, 67, 68, 69, 70, 71, 72, 74, 75, 76, 77, 78, 80, 81, 82, 83, 84,
   85, 86, 87, 88, 89, 90,
   97, 98, 99, 100, 101, 102, 103, 104, 105, 106, 107, 109, 110, 111, 112,
   113, 114, 115, 116, 117, 118, 119, 120, 121, 122]

/-- Character for a base58 digit value. -/
def b58Char (d : Nat) : Nat := b58Alphabet.getD d 0

def b58ValAux : List Nat → Nat → Nat → Option Nat
  | [], _, _ => none
  | a :: t, c, i => if a = c then some i else b58ValAux t c (i + 1)

/-- Digit value of a base58 character, if any. -/
def b58Val (c : Nat) : Option Nat := b58ValAux b58Alphabet c 0

/-- The regex character class `[1-9A-HJ-NP-Za-km-z]` from `isValidDID`. -/
def isB58Class (c : Nat) : Bool :=
  (49 ≤ c && c ≤ 57) || (65 ≤ c && c ≤ 72) || (74 ≤ c && c ≤ 78) ||
  (80 ≤ c && c ≤ 90) || (97 ≤ c && c ≤ 107) || (109 ≤ c && c ≤ 122)

/-- Map every character of a base58 string to its digit value. -/
def b58Vals : List Nat → Option (List Nat)
  | [] => some []
  | c :: t =>
    match b58Val c, b58Vals t with
    | some v, some vs => some (v :: vs)
    | _, _ => none

/-- Number of leading zeros of a byte (or digit) list. -/
def countLeadZeros : List Nat → Nat
  | 0 :: t => countLeadZeros t + 1
  | _ => 0

/-- Big-endian value of a byte array. -/
def bytesVal (bs : List Nat) : Nat := digitsVal 256 bs

/-- base58btc encoding of a byte array. -/
def base58encode (bs : List Nat) : List Nat :=
  List.replicate (countLeadZeros bs) 49 ++ (natDigits 58 (bytesVal bs)).map b58Char

/-- base58btc decoding; `none` models the library's throw on an invalid
character. -/
def base58decode (s : List Nat) : Option (List Nat) :=
  match b58Vals s with
  | none => none
  | some vals =>
    some (List.replicate (countLeadZeros vals) 0 ++ natDigits 256 (digitsVal 58 vals))

theorem b58Val_b58Char : ∀ d < 58, b58Val (b58Char d) = some d := by decide

theorem isB58Class_b58Char : ∀ d < 58, isB58Class (b58Char d) = true := by decide

theorem b58ValAux_spec : ∀ (l : List Nat) (c i v : Nat), b58ValAux l c i = some v →
    i ≤ v ∧ v < i + l.length ∧ l.getD (v - i) 0 = c := by
  intro l
  induction l with
  | nil => intro c i v h; simp [b58ValAux] at h
  | cons a t ih =>
    intro c i v h
    rw [b58ValAux] at h
    by_cases hac : a = c
    · rw [if_pos hac] at h
      injection h with hv
      subst hv
      refine ⟨Nat.le_refl i, by simp, ?_⟩
      simp [List.getD, hac]
    · rw [if_neg hac] at h
      obtain ⟨h1, h2, h3⟩ := ih c (i + 1) v h
      refine ⟨by omega, by simp; omega, ?_⟩
      have hvi : v - i = (v - (i + 1)) + 1 := by omega
      rw [hvi]
      simpa using h3

theorem b58Val_lt {c v : Nat} (h : b58Val c = some v) : v < 58 := by
  obtain ⟨_, h2, _⟩ := b58ValAux_spec b58Alphabet c 0 v h
  simpa [b58Alphabet] using h2

theorem b58Char_b58Val {c v : Nat} (h : b58Val c = some v) : b58Char v = c := by
  obtain ⟨_, _, h3⟩ := b58ValAux_spec b58Alphabet c 0 v h
  simpa [b58Char] using h3

theorem b58Vals_map_b58Char (vs : List Nat) (h : ∀ v ∈ vs, v < 58) :
    b58Vals (vs.map b58Char) = some vs := by
  induction vs with
  | nil => rfl
  | cons v t ih =>
    show b58Vals (b58Char v :: t.map b58Char) = _
    rw [b58Vals, b58Val_b58Char v (h v (by simp)), ih (fun x hx => h x (by simp [hx]))]

theorem b58Vals_inv : ∀ (s vs : List Nat), b58Vals s = some vs →
    s = vs.map b58Char ∧ ∀ v ∈ vs, v < 58 := by
  intro s
  induction s with
  | nil =>
    intro vs h
    simp [b58Vals] at h
    subst h
    simp
  | cons c t ih =>
    intro vs h
    rw [b58Vals] at h
    cases hv : b58Val c with
    | none => rw [hv] at h; cases h
    | some v =>
      rw [hv] at h
      cases hrest : b58Vals t with
      | none => rw [hrest] at h; cases h
      | some vs' =>
        rw [hrest] at h
        cases h
        obtain ⟨e, hlt⟩ := ih vs' hrest
        constructor
        · rw [List.map_cons, b58Char_b58Val hv, ← e]
        · intro x hx
          rcases List.mem_cons.mp hx with rfl | hx
          · exact b58Val_lt hv
          · exact hlt x hx

theorem countLeadZeros_eq_zero {d : Nat} (hd : d ≠ 0) (t : List Nat) :
    countLeadZeros (d :: t) = 0 := by
  cases d with
  | zero => exact absurd rfl hd
  | succ n => rfl

/-! ## DID derivation and parsing (`packages/passport/src/did.ts`) -/

/-- The string `did:key:z` as character codes. -/
def didHeader : List Nat := [100, 105, 100, 58, 107, 101, 121, 58, 122]

/-- `publicKeyToDID`: prepends the Ed25519 multicodec prefix `0xED 0x01`,
base58btc-encodes, and prefixes `did:key:z`.  `none` models the throw on a
key whose length is not 32 bytes. -/
def publicKeyToDID (pk : List Nat) : Option (List Nat) :=
  if pk.length = 32 then some (didHeader ++ base58encode (237 :: 1 :: pk)) else none

/-- `isValidDID`: prefix `did:key:z`, total length at least 48, all tail
characters in the base58 class. -/
def isValidDID (s : List Nat) : Bool :=
  didHeader.isPrefixOf s && decide (48 ≤ s.length) && (s.drop 9).all isB58Class

/-- The multicodec-prefix and length checks of `didToPublicKey` after a
successful base58 decode. -/
def didMulticodecCheck (mc : List Nat) : Option (List Nat) :=
  if mc.length < 2 then none
  else if mc.getD 0 0 ≠ 237 then none
  else if mc.getD 1 0 ≠ 1 then none
  else if (mc.drop 2).length ≠ 32 then none
  else some (mc.drop 2)

/-- `didToPublicKey`: validation, multibase check, base58 decode, multicodec
check, length check.  `none` models every thrown error. -/
def didToPublicKey (s : List Nat) : Option (List Nat) :=
  if isValidDID s = false then none
  else if (s.drop 8).head? ≠ some 122 then none
  else
    match base58decode (s.drop 9) with
    | none => none
    | some mc => didMulticodecCheck mc

theorem isValidDID_parts {s : List Nat} (h : isValidDID s = true) :
    didHeader.isPrefixOf s = true ∧ 48 ≤ s.length ∧ (s.drop 9).all isB58Class = true := by
  unfold isValidDID at h
  simp only [Bool.and_eq_true, decide_eq_true_eq] at h
  exact ⟨h.1.1, h.1.2, h.2⟩

theorem didHeader_drop_left (t : List Nat) : (didHeader ++ t).drop 9 = t := by
  have e : didHeader.length = 9 := rfl
  rw [← e, List.drop_left]

theorem did_roundtrip_core (pk : List Nat) (h32 : pk.length = 32)
    (hb : ∀ b ∈ pk, b < 256) :
    publicKeyToDID pk = some (didHeader ++ base58encode (237 :: 1 :: pk)) ∧
    base58encode (237 :: 1 :: pk) ≠ [] ∧
    (base58encode (237 :: 1 :: pk)).all isB58Class = true ∧
    isValidDID (didHeader ++ base58encode (237 :: 1 :: pk)) = true ∧
    didToPublicKey (didHeader ++ base58encode (237 :: 1 :: pk)) = some pk := by
  have hmlt : ∀ b ∈ 237 :: 1 :: pk, b < 256 := by
    intro b hbm
    rcases List.mem_cons.mp hbm with rfl | hbm
    · omega
    rcases List.mem_cons.mp hbm with rfl | hbm
    · omega
    · exact hb b hbm
  have hN1 : 1 ≤ bytesVal (237 :: 1 :: pk) :=
    digitsVal_pos (by omega) (by omega) (1 :: pk)
  have henc : base58encode (237 :: 1 :: pk) =
      (natDigits 58 (bytesVal (237 :: 1 :: pk))).map b58Char := by
    unfold base58encode
    rw [countLeadZeros_eq_zero (by omega), List.replicate_zero, List.nil_append]
  set N := bytesVal (237 :: 1 :: pk) with hNdef
  set ds := natDigits 58 N with hdsdef
  have hds_ne : ds ≠ [] := natDigits_ne_nil (by omega) (by omega)
  have hds_lt : ∀ d ∈ ds, d < 58 := natDigits_digit_lt (by omega) N
  have hds_hz : HeadNZ ds := natDigits_headNZ (by omega) N
  have hds_len : 39 ≤ ds.length := by
    have hlow : 237 * 256 ^ (1 :: pk).length ≤ N := digitsVal_lower_bound (by omega) 237 (1 :: pk)
    have hlen33 : (1 :: pk).length = 33 := by simp [h32]
    rw [hlen33] at hlow
    have h58 : (58 : Nat) ^ 38 ≤ 237 * 256 ^ 33 := by norm_num
    have hlg := natDigits_length_ge (b := 58) (k := 38) (n := N) (by omega) (le_trans h58 hlow)
    rw [← hdsdef] at hlg
    omega
  have htail_ne : base58encode (237 :: 1 :: pk) ≠ [] := by
    rw [henc]
    intro hc
    exact hds_ne (List.map_eq_nil_iff.mp hc)
  have htail_all : (base58encode (237 :: 1 :: pk)).all isB58Class = true := by
    rw [henc, List.all_eq_true]
    intro x hx
    obtain ⟨d, hd, rfl⟩ := List.mem_map.mp hx
    exact isB58Class_b58Char d (hds_lt d hd)
  have htail_len : (base58encode (237 :: 1 :: pk)).length = ds.length := by
    rw [henc, List.length_map]
  have hvalid : isValidDID (didHeader ++ base58encode (237 :: 1 :: pk)) = true := by
    unfold isValidDID
    simp only [Bool.and_eq_true, decide_eq_true_eq]
    refine ⟨⟨?_, ?_⟩, ?_⟩
    · exact List.isPrefixOf_iff_prefix.mpr ⟨base58encode (237 :: 1 :: pk), rfl⟩
    · rw [List.length_append, htail_len]
      have : didHeader.length = 9 := rfl
      omega
    · rw [didHeader_drop_left]
      exact htail_all
  have hdecode : base58decode (base58encode (237 :: 1 :: pk)) = some (237 :: 1 :: pk) := by
    rw [henc]
    unfold base58decode
    rw [b58Vals_map_b58Char ds hds_lt]
    show some (List.replicate (countLeadZeros ds) 0 ++ natDigits 256 (digitsVal 58 ds)) =
      some (237 :: 1 :: pk)
    have hz0 : countLeadZeros ds = 0 := by
      cases hds : ds with
      | nil => exact absurd hds hds_ne
      | cons d t =>
        have hd : d ≠ 0 := hds_hz d (by rw [hds]; rfl)
        exact countLeadZeros_eq_zero hd t
    have hmnz : HeadNZ (237 :: 1 :: pk) := by
      intro d hd
      simp at hd
      omega
    rw [hz0, List.replicate_zero, List.nil_append,
      digitsVal_natDigits (by omega : 2 ≤ 58) N, hNdef]
    unfold bytesVal
    rw [natDigits_digitsVal (by omega : 2 ≤ 256) _ hmlt hmnz]
  have hparse : didToPublicKey (didHeader ++ base58encode (237 :: 1 :: pk)) = some pk := by
    unfold didToPublicKey
    rw [hvalid]
    simp only [Bool.true_eq_false, if_false]
    have hdrop8 : ((didHeader ++ base58encode (237 :: 1 :: pk)).drop 8).head? = some 122 := by
      rw [List.drop_append_of_le_length (by simp [didHeader])]
      rfl
    rw [if_neg (by rw [hdrop8]; simp)]
    rw [didHeader_drop_left, hdecode]
    show didMulticodecCheck (237 :: 1 :: pk) = some pk
    unfold didMulticodecCheck
    rw [if_neg (by simp [h32])]
    rw [if_neg (by simp [List.getD])]
    rw [if_neg (by simp [List.getD])]
    rw [if_neg (by simp [h32])]
    simp
  refine ⟨?_, htail_ne, htail_all, hvalid, hparse⟩
  unfold publicKeyToDID
  rw [if_pos h32]

/-- A successfully parsed DID is fully determined by the extracted public
key: parsing inverts `didHeader ++ base58 digits of 0xED 0x01 ‖ pk`. -/
theorem didToPublicKey_spec : ∀ (s pk : List Nat), didToPublicKey s = some pk →
    s = didHeader ++ (natDigits 58 (digitsVal 256 (237 :: 1 :: pk))).map b58Char := by
  intro s pk h
  unfold didToPublicKey at h
  by_cases hval : isValidDID s = false
  · rw [if_pos hval] at h; cases h
  rw [if_neg hval] at h
  by_cases hz : (s.drop 8).head? ≠ some 122
  · rw [if_pos hz] at h; cases h
  rw [if_neg hz] at h
  cases hdec : base58decode (s.drop 9) with
  | none => rw [hdec] at h; cases h
  | some mc =>
    rw [hdec] at h
    replace h : didMulticodecCheck mc = some pk := h
    unfold didMulticodecCheck at h
    by_cases h2 : mc.length < 2
    · rw [if_pos h2] at h; cases h
    rw [if_neg h2] at h
    by_cases h237 : mc.getD 0 0 ≠ 237
    · rw [if_pos h237] at h; cases h
    rw [if_neg h237] at h
    push_neg at h237
    by_cases h1 : mc.getD 1 0 ≠ 1
    · rw [if_pos h1] at h; cases h
    rw [if_neg h1] at h
    push_neg at h1
    by_cases hlen : (mc.drop 2).length ≠ 32
    · rw [if_pos hlen] at h; cases h
    rw [if_neg hlen] at h
    injection h with hpk
    have hmc : mc = 237 :: 1 :: pk := by
      cases mc with
      | nil => simp at h2
      | cons c0 rest =>
        cases rest with
        | nil => simp at h2
        | cons c1 rest2 =>
          have e0 : c0 = 237 := by simpa [List.getD] using h237
          have e1 : c1 = 1 := by simpa [List.getD] using h1
          have e2 : rest2 = pk := by simpa using hpk
          rw [e0, e1, e2]
    unfold base58decode at hdec
    cases hvals : b58Vals (s.drop 9) with
    | none => rw [hvals] at hdec; cases hdec
    | some vals =>
      rw [hvals] at hdec
      injection hdec with hmc2
      obtain ⟨hs9, hvlt⟩ := b58Vals_inv _ _ hvals
      have hz0 : countLeadZeros vals = 0 := by
        by_contra hnz
        obtain ⟨k, hk⟩ : ∃ k, countLeadZeros vals = k + 1 :=
          ⟨countLeadZeros vals - 1, by omega⟩
        rw [hk, hmc, List.replicate_succ] at hmc2
        simp at hmc2
      rw [hz0, List.replicate_zero, List.nil_append] at hmc2
      -- `vals` is the canonical base58 digit string of the multicodec value
      have hVeq : digitsVal 58 vals = digitsVal 256 mc := by
        rw [← hmc2, digitsVal_natDigits (by omega : 2 ≤ 256)]
      have hvnz : HeadNZ vals := by
        intro d hd hd0
        cases vals with
        | nil => simp at hd
        | cons v t =>
          simp at hd
          subst hd
          subst hd0
          simp [countLeadZeros] at hz0
      have hvals_canon : vals = natDigits 58 (digitsVal 256 mc) := by
        rw [← hVeq, natDigits_digitsVal (by omega : 2 ≤ 58) vals hvlt hvnz]
      have hpre : didHeader <+: s := by
        have hvt : isValidDID s = true := by
          revert hval
          cases isValidDID s <;> simp
        exact List.isPrefixOf_iff_prefix.mp (isValidDID_parts hvt).1
      obtain ⟨t9, rfl⟩ := hpre
      rw [didHeader_drop_left] at hs9
      rw [hs9, hvals_canon, hmc]

theorem didToPublicKey_inj {s1 s2 pk : List Nat} (h1 : didToPublicKey s1 = some pk)
    (h2 : didToPublicKey s2 = some pk) : s1 = s2 := by
  rw [didToPublicKey_spec s1 pk h1, didToPublicKey_spec s2 pk h2]

/-- C4: for every 32-byte public key the derived DID matches
`^did:key:z[1-9A-HJ-NP-Za-km-z]+$` and parses back to exactly the original
key; `publicKeyToDID` fails on any other length. -/
theorem C4_aid_roundtrip :
    ∀ pk : List Nat,
      (pk.length = 32 → (∀ b ∈ pk, b < 256) →
        ∃ tail, publicKeyToDID pk = some (didHeader ++ tail) ∧ tail ≠ [] ∧
          tail.all isB58Class = true ∧
          didToPublicKey (didHeader ++ tail) = some pk) ∧
      (pk.length ≠ 32 → publicKeyToDID pk = none) := by
  intro pk
  constructor
  · intro h32 hb
    obtain ⟨henc, hne, hall, _, hparse⟩ := did_roundtrip_core pk h32 hb
    exact ⟨base58encode (237 :: 1 :: pk), henc, hne, hall, hparse⟩
  · intro h32
    unfold publicKeyToDID
    rw [if_neg h32]

/-- Concrete 32-byte key used to witness C4 (spec scenario S1 shape). -/
def pkW : List Nat :=
  [59, 106, 7, 0, 255, 3, 4, 5, 6, 7, 8, 9, 10, 11, 12, 13, 14, 15, 16, 17,
   18, 19, 20, 21, 22, 23, 24, 25, 26, 27, 28, 29]

theorem C4_aid_roundtrip_witness :
    (∃ tail, publicKeyToDID pkW = some (didHeader ++ tail) ∧ tail ≠ [] ∧
      tail.all isB58Class = true ∧
      didToPublicKey (didHeader ++ tail) = some pkW) ∧
    publicKeyToDID [1, 2, 3] = none :=
  ⟨(C4_aid_roundtrip pkW).1 (by decide) (by decide),
   (C4_aid_roundtrip [1, 2, 3]).2 (by decide)⟩

/-! ## Canonical JSON (RFC 8785, the `canonicalize` dependency)

The repository signs exactly two record shapes: the passport payload
`{capabilities, did, expiresAt?, issuedAt, publicKey}` and the rotation
payload `{newDid, newPublicKey, oldDid, timestamp}` (keys already in JCS
sorted order).  We implement the encoder concretely for these shapes:
JCS string escaping, decimal integers, arrays of strings. -/

/-- JCS escape of one character: `\"`, `\\`, `\b`, `\t`, `\n`, `\f`, `\r`,
`\u00xx` for the other control characters, the character itself otherwise. -/
def escChar (c : Nat) : List Nat :=
  if c = 34 then [92, 34]
  else if c = 92 then [92, 92]
  else if c = 8 then [92, 98]
  else if c = 9 then [92, 116]
  else if c = 10 then [92, 110]
  else if c = 12 then [92, 102]
  else if c = 13 then [92, 114]
  else if c < 32 then [92, 117, 48, 48, hexChar (c / 16), hexChar (c % 16)]
  else [c]

/-- JCS escape of a string. -/
def jsonEscape : List Nat → List Nat
  | [] => []
  | c :: t => escChar c ++ jsonEscape t

/-- A JSON string literal: quote, escaped body, quote. -/
def qstr (s : List Nat) : List Nat := 34 :: jsonEscape s ++ [34]

/-- The character unescaped by a two-character escape `\d`. -/
def simpleEsc (d : Nat) : Option Nat :=
  if d = 34 then some 34 else if d = 92 then some 92
  else if d = 98 then some 8 else if d = 116 then some 9
  else if d = 110 then some 10 else if d = 102 then some 12
  else if d = 114 then some 13 else none

/-- Decimal rendering of a nonnegative integer (ES number serialization on
the integers the repository signs). -/
def decDigits (n : Nat) : List Nat :=
  if n = 0 then [48] else (natDigits 10 n).map (fun d => 48 + d)

/-- Comma-separated JSON string literals (array body). -/
def arrBody : List (List Nat) → List Nat
  | [] => []
  | [x] => qstr x
  | x :: y :: t => qstr x ++ 44 :: arrBody (y :: t)

/-- A JSON array of strings. -/
def canonStrArr (xs : List (List Nat)) : List Nat := 91 :: arrBody xs ++ [93]

theorem escChar_shape (c : Nat) :
    (escChar c = [c] ∧ c ≠ 34 ∧ c ≠ 92 ∧ 32 ≤ c) ∨
    (∃ d, escChar c = [92, d] ∧ d ≠ 117 ∧ simpleEsc d = some c) ∨
    (escChar c = [92, 117, 48, 48, hexChar (c / 16), hexChar (c % 16)] ∧ c < 32) := by
  unfold escChar
  split_ifs with h1 h2 h3 h4 h5 h6 h7 h8
  · right; left; exact ⟨34, rfl, by omega, by simp [simpleEsc, h1]⟩
  · right; left; exact ⟨92, rfl, by omega, by simp [simpleEsc, h2]⟩
  · right; left; exact ⟨98, rfl, by omega, by simp [simpleEsc, h3]⟩
  · right; left; exact ⟨116, rfl, by omega, by simp [simpleEsc, h4]⟩
  · right; left; exact ⟨110, rfl, by omega, by simp [simpleEsc, h5]⟩
  · right; left; exact ⟨102, rfl, by omega, by simp [simpleEsc, h6]⟩
  · right; left; exact ⟨114, rfl, by omega, by simp [simpleEsc, h7]⟩
  · right; right; exact ⟨rfl, h8⟩
  · left; exact ⟨rfl, h1, h2, by omega⟩

theorem hexChar_inj {a b : Nat} (ha : a < 16) (hb : b < 16)
    (h : hexChar a = hexChar b) : a = b := by
  have e1 := hexVal_hexChar a ha
  have e2 := hexVal_hexChar b hb
  rw [h, e2] at e1
  exact (Option.some_inj.mp e1).symm

/-- Unique decodability of an escaped string followed by an unescaped
closing quote: the first unescaped quote separates body and rest. -/
theorem jsonEscape_quote_inj : ∀ (s1 s2 r1 r2 : List Nat),
    jsonEscape s1 ++ 34 :: r1 = jsonEscape s2 ++ 34 :: r2 → s1 = s2 ∧ r1 = r2 := by
  intro s1
  induction s1 with
  | nil =>
    intro s2 r1 r2 h
    cases s2 with
    | nil => simpa using h
    | cons c2 t2 =>
      exfalso
      rw [jsonEscape, jsonEscape, List.nil_append, List.append_assoc] at h
      rcases escChar_shape c2 with ⟨e, hq, hb, _⟩ | ⟨d, e, hu, hs⟩ | ⟨e, hc⟩
      · rw [e] at h
        simp at h
        omega
      · rw [e] at h
        simp at h
      · rw [e] at h
        simp at h
  | cons c1 t1 ih =>
    intro s2 r1 r2 h
    cases s2 with
    | nil =>
      exfalso
      rw [jsonEscape, jsonEscape, List.nil_append, List.append_assoc] at h
      rcases escChar_shape c1 with ⟨e, hq, hb, _⟩ | ⟨d, e, hu, hs⟩ | ⟨e, hc⟩
      · rw [e] at h
        simp at h
        omega
      · rw [e] at h
        simp at h
      · rw [e] at h
        simp at h
    | cons c2 t2 =>
      rw [jsonEscape, jsonEscape, List.append_assoc, List.append_assoc] at h
      rcases escChar_shape c1 with ⟨e1, hq1, hb1, _⟩ | ⟨d1, e1, hu1, hs1⟩ | ⟨e1, hc1⟩ <;>
        rcases escChar_shape c2 with ⟨e2, hq2, hb2, _⟩ | ⟨d2, e2, hu2, hs2⟩ | ⟨e2, hc2⟩ <;>
        rw [e1, e2] at h <;> simp at h
      · -- plain / plain
        obtain ⟨hc, ht⟩ := h
        obtain ⟨hts, htr⟩ := ih t2 r1 r2 ht
        exact ⟨by rw [hc, hts], htr⟩
      · -- plain / simple: head of the right side is a backslash
        exfalso
        obtain ⟨h1, -⟩ := h
        omega
      · -- plain / unicode
        exfalso
        obtain ⟨h1, -⟩ := h
        omega
      · -- simple / plain
        exfalso
        obtain ⟨h1, -⟩ := h
        omega
      · -- simple / simple
        obtain ⟨hd, ht⟩ := h
        have hc12 : c1 = c2 := by
          rw [hd] at hs1
          rw [hs1] at hs2
          exact Option.some_inj.mp hs2
        obtain ⟨hts, htr⟩ := ih t2 r1 r2 ht
        exact ⟨by rw [hc12, hts], htr⟩
      · -- simple / unicode: second character would be `u`
        exfalso
        obtain ⟨h1, -⟩ := h
        omega
      · -- unicode / plain
        exfalso
        obtain ⟨h1, -⟩ := h
        omega
      · -- unicode / simple
        exfalso
        obtain ⟨h1, -⟩ := h
        omega
      · -- unicode / unicode
        obtain ⟨hh1, hh2, ht⟩ := h
        have hdiv : c1 / 16 = c2 / 16 := hexChar_inj (by omega) (by omega) hh1
        have hmod : c1 % 16 = c2 % 16 := hexChar_inj
          (Nat.mod_lt c1 (by omega)) (Nat.mod_lt c2 (by omega)) hh2
        have hc12 : c1 = c2 := by omega
        obtain ⟨hts, htr⟩ := ih t2 r1 r2 ht
        exact ⟨by rw [hc12, hts], htr⟩

theorem qstr_append_inj {s1 s2 r1 r2 : List Nat}
    (h : qstr s1 ++ r1 = qstr s2 ++ r2) : s1 = s2 ∧ r1 = r2 := by
  unfold qstr at h
  rw [List.cons_append, List.cons_append, List.append_assoc, List.append_assoc,
    List.singleton_append, List.singleton_append] at h
  injection h with h34 hrest
  exact jsonEscape_quote_inj s1 s2 r1 r2 hrest

theorem arrBody_bracket_inj : ∀ (xs1 xs2 : List (List Nat)) (r1 r2 : List Nat),
    arrBody xs1 ++ 93 :: r1 = arrBody xs2 ++ 93 :: r2 → xs1 = xs2 ∧ r1 = r2 := by
  intro xs1
  induction xs1 with
  | nil =>
    intro xs2 r1 r2 h
    cases xs2 with
    | nil => simpa using h
    | cons x2 t2 =>
      exfalso
      cases t2 with
      | nil =>
        rw [arrBody, arrBody] at h
        simp [qstr] at h
      | cons y2 u2 =>
        rw [arrBody, arrBody] at h
        simp [qstr] at h
  | cons x1 t1 ih =>
    intro xs2 r1 r2 h
    cases xs2 with
    | nil =>
      exfalso
      cases t1 with
      | nil =>
        rw [arrBody, arrBody] at h
        simp [qstr] at h
      | cons y1 u1 =>
        rw [arrBody, arrBody] at h
        simp [qstr] at h
    | cons x2 t2 =>
      cases t1 with
      | nil =>
        cases t2 with
        | nil =>
          rw [arrBody, arrBody] at h
          obtain ⟨hx, hr⟩ := qstr_append_inj h
          refine ⟨by rw [hx], by simpa using hr⟩
        | cons y2 u2 =>
          exfalso
          rw [arrBody, arrBody] at h
          rw [List.append_assoc] at h
          obtain ⟨_, hr⟩ := qstr_append_inj h
          simp at hr
      | cons y1 u1 =>
        cases t2 with
        | nil =>
          exfalso
          rw [arrBody, arrBody] at h
          rw [List.append_assoc] at h
          obtain ⟨_, hr⟩ := qstr_append_inj h.symm
          simp at hr
        | cons y2 u2 =>
          rw [arrBody, arrBody] at h
          rw [List.append_assoc, List.append_assoc] at h
          obtain ⟨hx, hr⟩ := qstr_append_inj h
          simp only [List.cons_append, List.cons.injEq] at hr
          obtain ⟨ht, hrr⟩ := ih (y2 :: u2) r1 r2 hr.2
          exact ⟨by rw [hx, ht], hrr⟩

theorem canonStrArr_append_inj {xs1 xs2 : List (List Nat)} {r : List Nat}
    (h : canonStrArr xs1 ++ r = canonStrArr xs2 ++ r) : xs1 = xs2 := by
  unfold canonStrArr at h
  rw [List.cons_append, List.cons_append, List.append_assoc, List.append_assoc,
    List.singleton_append] at h
  injection h with h91 hrest
  exact (arrBody_bracket_inj xs1 xs2 r r hrest).1

/-- Decimal reading of a digit string (proof-side inverse of `decDigits`). -/
def decVal (s : List Nat) : Nat := digitsVal 10 (s.map (fun c => c - 48))

theorem decVal_decDigits (n : Nat) : decVal (decDigits n) = n := by
  unfold decDigits decVal
  by_cases hn : n = 0
  · subst hn
    simp [digitsVal]
  · rw [if_neg hn, List.map_map]
    have hfun : ((fun c => c - 48) ∘ (fun d => 48 + d)) = id := by
      funext d
      simp
    rw [hfun, List.map_id]
    exact digitsVal_natDigits (by omega) n

theorem decDigits_range (n : Nat) : ∀ x ∈ decDigits n, 48 ≤ x ∧ x ≤ 57 := by
  unfold decDigits
  by_cases hn : n = 0
  · subst hn
    intro x hx
    simp at hx
    omega
  · rw [if_neg hn]
    intro x hx
    obtain ⟨d, hd, rfl⟩ := List.mem_map.mp hx
    have := natDigits_digit_lt (b := 10) (by omega) n d hd
    omega

/-- Two runs of decimal digits followed by the same non-digit character
decompose identically. -/
theorem digitRun_append_inj : ∀ (a b r1 r2 : List Nat) (c1 c2 : Nat),
    (∀ x ∈ a, 48 ≤ x ∧ x ≤ 57) → (∀ x ∈ b, 48 ≤ x ∧ x ≤ 57) →
    ¬(48 ≤ c1 ∧ c1 ≤ 57) → ¬(48 ≤ c2 ∧ c2 ≤ 57) →
    a ++ c1 :: r1 = b ++ c2 :: r2 → a = b ∧ c1 = c2 ∧ r1 = r2 := by
  intro a
  induction a with
  | nil =>
    intro b r1 r2 c1 c2 ha hb hc1 hc2 h
    cases b with
    | nil =>
      simp at h
      exact ⟨rfl, h.1, h.2⟩
    | cons d bs =>
      exfalso
      simp at h
      have := hb d (by simp)
      omega
  | cons d as ih =>
    intro b r1 r2 c1 c2 ha hb hc1 hc2 h
    cases b with
    | nil =>
      exfalso
      simp at h
      have := ha d (by simp)
      omega
    | cons e bs =>
      simp only [List.cons_append, List.cons.injEq] at h
      obtain ⟨hde, ht⟩ := h
      obtain ⟨h1, h2, h3⟩ := ih bs r1 r2 c1 c2
        (fun x hx => ha x (by simp [hx])) (fun x hx => hb x (by simp [hx])) hc1 hc2 ht
      exact ⟨by rw [hde, h1], h2, h3⟩

theorem decDigits_sep_inj {n1 n2 c : Nat} {r : List Nat} (hc : ¬(48 ≤ c ∧ c ≤ 57))
    (h : decDigits n1 ++ c :: r = decDigits n2 ++ c :: r) : n1 = n2 := by
  obtain ⟨ha, -, -⟩ := digitRun_append_inj (decDigits n1) (decDigits n2) r r c c
    (decDigits_range n1) (decDigits_range n2) hc hc h
  have e1 := decVal_decDigits n1
  have e2 := decVal_decDigits n2
  rw [ha, e2] at e1
  exact e1.symm

/-! ### The two canonical payloads the repository signs

Key names as character-code lists, in JCS (code point) sorted order. -/

def keyCaps : List Nat := [99, 97, 112, 97, 98, 105, 108, 105, 116, 105, 101, 115]
def keyDid : List Nat := [100, 105, 100]
def keyExpiresAt : List Nat := [101, 120, 112, 105, 114, 101, 115, 65, 116]
def keyIssuedAt : List Nat := [105, 115, 115, 117, 101, 100, 65, 116]
def keyPublicKey : List Nat := [112, 117, 98, 108, 105, 99, 75, 101, 121]
def keyNewDid : List Nat := [110, 101, 119, 68, 105, 100]
def keyNewPublicKey : List Nat := [110, 101, 119, 80, 117, 98, 108, 105, 99, 75, 101, 121]
def keyOldDid : List Nat := [111, 108, 100, 68, 105, 100]
def keyTimestamp : List Nat := [116, 105, 109, 101, 115, 116, 97, 109, 112]

/-- Canonical JSON of the passport payload
`{capabilities, did, expiresAt?, issuedAt, publicKey}` (signed by
`createPassport`, re-derived by `verifyPassport`). -/
def canonPassportPayload (did pkHex : List Nat) (caps : List (List Nat))
    (issuedAt : Nat) (expiresAt : Option Nat) : List Nat :=
  [123] ++ qstr keyCaps ++ [58] ++ canonStrArr caps ++
  [44] ++ qstr keyDid ++ [58] ++ qstr did ++
  (match expiresAt with
   | none => ([] : List Nat)
   | some e => [44] ++ qstr keyExpiresAt ++ [58] ++ decDigits e) ++
  [44] ++ qstr keyIssuedAt ++ [58] ++ decDigits issuedAt ++
  [44] ++ qstr keyPublicKey ++ [58] ++ qstr pkHex ++ [125]

/-- Canonical JSON of the rotation payload
`{newDid, newPublicKey, oldDid, timestamp}`. -/
def canonRotationPayload (oldDid newDid newPk : List Nat) (ts : Nat) : List Nat :=
  [123] ++ qstr keyNewDid ++ [58] ++ qstr newDid ++
  [44] ++ qstr keyNewPublicKey ++ [58] ++ qstr newPk ++
  [44] ++ qstr keyOldDid ++ [58] ++ qstr oldDid ++
  [44] ++ qstr keyTimestamp ++ [58] ++ decDigits ts ++ [125]

theorem qstr_inj {s1 s2 : List Nat} (h : qstr s1 = qstr s2) : s1 = s2 := by
  have h' : qstr s1 ++ [] = qstr s2 ++ [] := by rw [List.append_nil, List.append_nil, h]
  exact (qstr_append_inj h').1

theorem decDigits_inj {n1 n2 : Nat} (h : decDigits n1 = decDigits n2) : n1 = n2 := by
  have e1 := decVal_decDigits n1
  rw [h, decVal_decDigits n2] at e1
  exact e1.symm

theorem canonPassport_caps_inj {d pk : List Nat} {c1 c2 : List (List Nat)}
    {i : Nat} {e : Option Nat}
    (h : canonPassportPayload d pk c1 i e = canonPassportPayload d pk c2 i e) :
    c1 = c2 := by
  unfold canonPassportPayload at h
  simp only [List.append_assoc] at h
  replace h := List.append_cancel_left h
  replace h := List.append_cancel_left h
  replace h := List.append_cancel_left h
  exact canonStrArr_append_inj h

theorem canonPassport_issuedAt_inj {d pk : List Nat} {c : List (List Nat)}
    {i1 i2 : Nat} {e : Option Nat}
    (h : canonPassportPayload d pk c i1 e = canonPassportPayload d pk c i2 e) :
    i1 = i2 := by
  unfold canonPassportPayload at h
  simp only [List.append_assoc] at h
  replace h := List.append_cancel_left h
  replace h := List.append_cancel_left h
  replace h := List.append_cancel_left h
  replace h := List.append_cancel_left h
  replace h := List.append_cancel_left h
  replace h := List.append_cancel_left h
  replace h := List.append_cancel_left h
  replace h := List.append_cancel_left h
  replace h := List.append_cancel_left h
  replace h := List.append_cancel_left h
  replace h := List.append_cancel_left h
  replace h := List.append_cancel_left h
  exact decDigits_inj (List.append_cancel_right h)

theorem canonPassport_expiresAt_inj {d pk : List Nat} {c : List (List Nat)}
    {i e1 e2 : Nat}
    (h : canonPassportPayload d pk c i (some e1) = canonPassportPayload d pk c i (some e2)) :
    e1 = e2 := by
  unfold canonPassportPayload at h
  simp only [List.append_assoc] at h
  replace h := List.append_cancel_left h
  replace h := List.append_cancel_left h
  replace h := List.append_cancel_left h
  replace h := List.append_cancel_left h
  replace h := List.append_cancel_left h
  replace h := List.append_cancel_left h
  replace h := List.append_cancel_left h
  replace h := List.append_cancel_left h
  replace h := List.append_cancel_left h
  replace h := List.append_cancel_left h
  replace h := List.append_cancel_left h
  exact decDigits_inj (List.append_cancel_right h)

theorem canonRotation_oldDid_inj {o1 o2 nd np : List Nat} {ts : Nat}
    (h : canonRotationPayload o1 nd np ts = canonRotationPayload o2 nd np ts) :
    o1 = o2 := by
  unfold canonRotationPayload at h
  simp only [List.append_assoc] at h
  replace h := List.append_cancel_left h
  replace h := List.append_cancel_left h
  replace h := List.append_cancel_left h
  replace h := List.append_cancel_left h
  replace h := List.append_cancel_left h
  replace h := List.append_cancel_left h
  replace h := List.append_cancel_left h
  replace h := List.append_cancel_left h
  replace h := List.append_cancel_left h
  replace h := List.append_cancel_left h
  replace h := List.append_cancel_left h
  exact (qstr_append_inj h).1

theorem canonRotation_newDid_inj {o nd1 nd2 np : List Nat} {ts : Nat}
    (h : canonRotationPayload o nd1 np ts = canonRotationPayload o nd2 np ts) :
    nd1 = nd2 := by
  unfold canonRotationPayload at h
  simp only [List.append_assoc] at h
  replace h := List.append_cancel_left h
  replace h := List.append_cancel_left h
  replace h := List.append_cancel_left h
  exact (qstr_append_inj h).1

theorem canonRotation_newPk_inj {o nd np1 np2 : List Nat} {ts : Nat}
    (h : canonRotationPayload o nd np1 ts = canonRotationPayload o nd np2 ts) :
    np1 = np2 := by
  unfold canonRotationPayload at h
  simp only [List.append_assoc] at h
  replace h := List.append_cancel_left h
  replace h := List.append_cancel_left h
  replace h := List.append_cancel_left h
  replace h := List.append_cancel_left h
  replace h := List.append_cancel_left h
  replace h := List.append_cancel_left h
  replace h := List.append_cancel_left h
  exact (qstr_append_inj h).1

theorem canonRotation_ts_inj {o nd np : List Nat} {t1 t2 : Nat}
    (h : canonRotationPayload o nd np t1 = canonRotationPayload o nd np t2) :
    t1 = t2 := by
  unfold canonRotationPayload at h
  simp only [List.append_assoc] at h
  replace h := List.append_cancel_left h
  replace h := List.append_cancel_left h
  replace h := List.append_cancel_left h
  replace h := List.append_cancel_left h
  replace h := List.append_cancel_left h
  replace h := List.append_cancel_left h
  replace h := List.append_cancel_left h
  replace h := List.append_cancel_left h
  replace h := List.append_cancel_left h
  replace h := List.append_cancel_left h
  replace h := List.append_cancel_left h
  replace h := List.append_cancel_left h
  replace h := List.append_cancel_left h
  replace h := List.append_cancel_left h
  replace h := List.append_cancel_left h
  exact decDigits_inj (List.append_cancel_right h)

/-! ## Symbolic Ed25519 (`@noble/ed25519`, external)

Ideal-signature abstraction: a stored signature hex string is either the
encoding of a genuine signature — a term recording the signed message and
the signing key — or some other raw string, which never verifies.
Public-key derivation is modelled as an injective map on key bytes. -/

/-- Symbolic public-key derivation (injective; identity is the simplest
injective executable choice). -/
def pubOf (sk : List Nat) : List Nat := sk

/-- Contents of a stored 128-hex-character signature field. -/
inductive SigVal where
  | real (msg : List Nat) (sk : List Nat)
  | raw (s : List Nat)
  deriving DecidableEq, Repr

/-- `toHex(await sign(msg, sk))`: the stored signature string. -/
def signHex (msg sk : List Nat) : SigVal := SigVal.real msg sk

/-- The test `^[0-9a-f]{128}$` on the stored signature: a genuine 64-byte
signature is always 128 lowercase hex characters. -/
def sigFormatOk : SigVal → Bool
  | SigVal.real _ _ => true
  | SigVal.raw s => isHexLowerLen s 128

/-- JS truthiness of the stored signature string (only the empty string is
falsy). -/
def sigTruthy : SigVal → Bool
  | SigVal.real _ _ => true
  | SigVal.raw s => !s.isEmpty

/-- `fromHex` of the stored signature followed by `ed25519.verify` over
`msg` under `pk`: true exactly for a genuine signature of `msg` by the key
pair of `pk`. -/
def edVerifyHex (sig : SigVal) (msg pk : List Nat) : Bool :=
  match sig with
  | SigVal.real m k => decide (m = msg) && decide (pubOf k = pk)
  | SigVal.raw _ => false

/-! ## Passports (`packages/passport/src/passport.ts`, part_001) -/

/-- `KeyPair` from `@qualia/types`. -/
structure KeyPair where
  publicKey : List Nat
  privateKey : List Nat
  deriving DecidableEq, Repr

/-- An honestly generated Ed25519 key pair: the public key is derived from
the private key and is 32 bytes. -/
def ValidKeyPair (kp : KeyPair) : Prop :=
  kp.publicKey = pubOf kp.privateKey ∧ kp.publicKey.length = 32 ∧
    ∀ b ∈ kp.publicKey, b < 256

/-- `Passport` from `@qualia/types`: strings as code-point lists, the
signature field symbolic. -/
structure Passport where
  did : List Nat
  publicKey : List Nat
  capabilities : List (List Nat)
  issuedAt : Nat
  expiresAt : Option Nat
  signature : SigVal
  deriving DecidableEq, Repr

/-- `createPassport(keypair, capabilities, {ttlSeconds?})`; `now` is the
clock `Math.floor(Date.now() / 1000)` made explicit; `none` models the
throw from `publicKeyToDID`. -/
def createPassport (kp : KeyPair) (capabilities : List (List Nat))
    (ttlSeconds : Option Nat) (now : Nat) : Option Passport :=
  match publicKeyToDID kp.publicKey with
  | none => none
  | some did =>
    let issuedAt := now
    let publicKeyHex := toHex kp.publicKey
    let expiresAt := ttlSeconds.map (fun ttl => issuedAt + ttl)
    let payload := canonPassportPayload did publicKeyHex capabilities issuedAt expiresAt
    some { did := did, publicKey := publicKeyHex, capabilities := capabilities,
           issuedAt := issuedAt, expiresAt := expiresAt,
           signature := signHex payload kp.privateKey }

/-- `isExpired(passport, currentTime?)`; `now` is the clock made explicit. -/
def isExpired (p : Passport) (currentTime : Option Nat) (now : Nat) : Bool :=
  match p.expiresAt with
  | none => false
  | some e => decide (currentTime.getD now ≥ e)

/-- `verifyPassport(passport, {ignoreExpiration?, currentTime?})`; `now` is
the clock made explicit.  Follows the source's check order; every thrown
error is `false` via the surrounding catch. -/
def verifyPassport (p : Passport) (ignoreExpiration : Bool)
    (currentTime : Option Nat) (now : Nat) : Bool :=
  if isValidDID p.did = false then false
  else if isHexLowerLen p.publicKey 64 = false then false
  else if sigFormatOk p.signature = false then false
  else if !ignoreExpiration &&
      (match p.expiresAt with
       | none => false
       | some e => decide (currentTime.getD now ≥ e)) then false
  else
    match didToPublicKey p.did with
    | none => false
    | some publicKeyFromDID =>
      match fromHex p.publicKey with
      | none => false
      | some publicKeyFromPassport =>
        if publicKeyFromDID ≠ publicKeyFromPassport then false
        else edVerifyHex p.signature
          (canonPassportPayload p.did p.publicKey p.capabilities p.issuedAt p.expiresAt)
          publicKeyFromDID

/-- The verification chain without the expiration step (steps 1–3 and 5):
the "signature-check result". -/
def signatureChecks (p : Passport) : Bool :=
  if isValidDID p.did = false then false
  else if isHexLowerLen p.publicKey 64 = false then false
  else if sigFormatOk p.signature = false then false
  else
    match didToPublicKey p.did with
    | none => false
    | some publicKeyFromDID =>
      match fromHex p.publicKey with
      | none => false
      | some publicKeyFromPassport =>
        if publicKeyFromDID ≠ publicKeyFromPassport then false
        else edVerifyHex p.signature
          (canonPassportPayload p.did p.publicKey p.capabilities p.issuedAt p.expiresAt)
          publicKeyFromDID

theorem canonPassport_none_ne_some (d pk : List Nat) (c : List (List Nat)) (i e : Nat) :
    canonPassportPayload d pk c i none ≠ canonPassportPayload d pk c i (some e) := by
  intro h
  unfold canonPassportPayload at h
  simp only [List.append_assoc, List.nil_append] at h
  replace h := List.append_cancel_left h
  replace h := List.append_cancel_left h
  replace h := List.append_cancel_left h
  replace h := List.append_cancel_left h
  replace h := List.append_cancel_left h
  replace h := List.append_cancel_left h
  replace h := List.append_cancel_left h
  replace h := List.append_cancel_left h
  replace h := List.append_cancel_left h
  have hk := (qstr_append_inj h).1
  revert hk
  decide

theorem verifyPassport_true_parts {q : Passport} {io : Bool} {ct : Option Nat} {now : Nat}
    (h : verifyPassport q io ct now = true) :
    isHexLowerLen q.publicKey 64 = true ∧
    ∃ pkD pkP, didToPublicKey q.did = some pkD ∧ fromHex q.publicKey = some pkP ∧
      pkD = pkP ∧
      edVerifyHex q.signature
        (canonPassportPayload q.did q.publicKey q.capabilities q.issuedAt q.expiresAt)
        pkD = true := by
  unfold verifyPassport at h
  by_cases h1 : isValidDID q.did = false
  · rw [if_pos h1] at h; cases h
  rw [if_neg h1] at h
  by_cases h2 : isHexLowerLen q.publicKey 64 = false
  · rw [if_pos h2] at h; cases h
  rw [if_neg h2] at h
  by_cases h3 : sigFormatOk q.signature = false
  · rw [if_pos h3] at h; cases h
  rw [if_neg h3] at h
  by_cases h4 : (!io &&
      (match q.expiresAt with
       | none => false
       | some e => decide (ct.getD now ≥ e))) = true
  · rw [if_pos h4] at h; cases h
  rw [if_neg h4] at h
  cases hd : didToPublicKey q.did with
  | none => rw [hd] at h; cases h
  | some pkD =>
    rw [hd] at h
    cases hf : fromHex q.publicKey with
    | none => rw [hf] at h; cases h
    | some pkP =>
      rw [hf] at h
      replace h : (if pkD ≠ pkP then false
        else edVerifyHex q.signature
          (canonPassportPayload q.did q.publicKey q.capabilities q.issuedAt q.expiresAt)
          pkD) = true := h
      by_cases hne : pkD ≠ pkP
      · rw [if_pos hne] at h; cases h
      · rw [if_neg hne] at h
        push_neg at hne
        refine ⟨?_, pkD, pkP, rfl, rfl, hne, h⟩
        revert h2
        cases isHexLowerLen q.publicKey 64 <;> simp

theorem isHexLowerLen_toHex {bs : List Nat} (h32 : bs.length = 32)
    (hb : ∀ b ∈ bs, b < 256) : isHexLowerLen (toHex bs) 64 = true := by
  unfold isHexLowerLen
  rw [toHex_length, h32, toHex_all_lower bs hb]
  rfl

theorem createPassport_fields {kp : KeyPair} {caps : List (List Nat)}
    {ttl : Option Nat} {now : Nat} {p : Passport} (hkp : ValidKeyPair kp)
    (h : createPassport kp caps ttl now = some p) :
    p.did = didHeader ++ base58encode (237 :: 1 :: kp.publicKey) ∧
    p.publicKey = toHex kp.publicKey ∧ p.capabilities = caps ∧ p.issuedAt = now ∧
    p.expiresAt = ttl.map (fun t => now + t) ∧
    p.signature = SigVal.real
      (canonPassportPayload (didHeader ++ base58encode (237 :: 1 :: kp.publicKey))
        (toHex kp.publicKey) caps now (ttl.map (fun t => now + t)))
      kp.privateKey ∧
    isValidDID p.did = true ∧ didToPublicKey p.did = some kp.publicKey := by
  obtain ⟨hpub, h32, hbytes⟩ := hkp
  obtain ⟨henc, -, -, hvalid, hparse⟩ := did_roundtrip_core kp.publicKey h32 hbytes
  unfold createPassport at h
  rw [henc] at h
  injection h with hp
  subst hp
  exact ⟨rfl, rfl, rfl, rfl, rfl, rfl, hvalid, hparse⟩

/-- C2: a passport freshly created by `createPassport` verifies, and
changing any single signed field — `did`, `publicKey`, `capabilities`,
`issuedAt` or `expiresAt` — makes `verifyPassport` return `false` under
every option combination. -/
theorem C2_tamper_detection :
    ∀ (kp : KeyPair) (caps : List (List Nat)) (ttl : Option Nat) (now : Nat)
      (p : Passport), ValidKeyPair kp → createPassport kp caps ttl now = some p →
    (∀ ct now', verifyPassport p true ct now' = true) ∧
    (∀ d' io ct now', d' ≠ p.did →
      verifyPassport { p with did := d' } io ct now' = false) ∧
    (∀ pk' io ct now', pk' ≠ p.publicKey →
      verifyPassport { p with publicKey := pk' } io ct now' = false) ∧
    (∀ caps' io ct now', caps' ≠ p.capabilities →
      verifyPassport { p with capabilities := caps' } io ct now' = false) ∧
    (∀ i' io ct now', i' ≠ p.issuedAt →
      verifyPassport { p with issuedAt := i' } io ct now' = false) ∧
    (∀ e' io ct now', some e' ≠ p.expiresAt →
      verifyPassport { p with expiresAt := some e' } io ct now' = false) := by
  intro kp caps ttl now p hkp hc
  obtain ⟨hdid, hpk, hcaps, hiss, hexp, hsig, hvalid, hparse⟩ := createPassport_fields hkp hc
  obtain ⟨hpub, h32, hbytes⟩ := hkp
  have hhex : isHexLowerLen p.publicKey 64 = true := by
    rw [hpk]; exact isHexLowerLen_toHex h32 hbytes
  have hfrom : fromHex p.publicKey = some kp.publicKey := by
    rw [hpk]; exact fromHex_toHex_roundtrip kp.publicKey hbytes
  have hmsg : p.signature = SigVal.real
      (canonPassportPayload p.did p.publicKey p.capabilities p.issuedAt p.expiresAt)
      kp.privateKey := by
    rw [hsig, hdid, hpk, hcaps, hiss, hexp]
  refine ⟨?_, ?_, ?_, ?_, ?_, ?_⟩
  · -- honest verification with ignoreExpiration
    intro ct now'
    simp [verifyPassport, hvalid, hhex, hmsg, hparse, hfrom, sigFormatOk, edVerifyHex, ← hpub]
  · -- did mutation
    intro d' io ct now' hne
    by_contra hv
    have hv' : verifyPassport { p with did := d' } io ct now' = true := by
      revert hv; cases verifyPassport { p with did := d' } io ct now' <;> simp
    obtain ⟨-, pkD, pkP, hd, hf, hDP, hed⟩ := verifyPassport_true_parts hv'
    simp only at hd hf hed
    rw [hfrom] at hf
    injection hf with hf
    rw [hDP, ← hf] at hd
    exact hne (didToPublicKey_inj hd hparse)
  · -- publicKey mutation
    intro pk' io ct now' hne
    by_contra hv
    have hv' : verifyPassport { p with publicKey := pk' } io ct now' = true := by
      revert hv; cases verifyPassport { p with publicKey := pk' } io ct now' <;> simp
    obtain ⟨hlen, pkD, pkP, hd, hf, hDP, hed⟩ := verifyPassport_true_parts hv'
    simp only at hlen hd hf hed
    rw [hparse] at hd
    injection hd with hd
    rw [← hd] at hDP
    rw [← hDP] at hf
    -- pk' is 64 lowercase hex decoding to kp.publicKey, hence equals toHex of it
    have hall : pk'.all isHexLower = true := by
      unfold isHexLowerLen at hlen
      simp only [Bool.and_eq_true] at hlen
      exact hlen.2
    have := toHex_fromHex pk' kp.publicKey hall hf
    exact hne (by rw [← this, hpk])
  · -- capabilities mutation
    intro caps' io ct now' hne
    by_contra hv
    have hv' : verifyPassport { p with capabilities := caps' } io ct now' = true := by
      revert hv; cases verifyPassport { p with capabilities := caps' } io ct now' <;> simp
    obtain ⟨-, pkD, pkP, hd, hf, hDP, hed⟩ := verifyPassport_true_parts hv'
    simp only at hd hf hed
    rw [hmsg] at hed
    unfold edVerifyHex at hed
    simp only [Bool.and_eq_true, decide_eq_true_eq] at hed
    exact hne (canonPassport_caps_inj hed.1).symm
  · -- issuedAt mutation
    intro i' io ct now' hne
    by_contra hv
    have hv' : verifyPassport { p with issuedAt := i' } io ct now' = true := by
      revert hv; cases verifyPassport { p with issuedAt := i' } io ct now' <;> simp
    obtain ⟨-, pkD, pkP, hd, hf, hDP, hed⟩ := verifyPassport_true_parts hv'
    simp only at hd hf hed
    rw [hmsg] at hed
    unfold edVerifyHex at hed
    simp only [Bool.and_eq_true, decide_eq_true_eq] at hed
    exact hne (canonPassport_issuedAt_inj hed.1).symm
  · -- expiresAt mutation
    intro e' io ct now' hne
    by_contra hv
    have hv' : verifyPassport { p with expiresAt := some e' } io ct now' = true := by
      revert hv; cases verifyPassport { p with expiresAt := some e' } io ct now' <;> simp
    obtain ⟨-, pkD, pkP, hd, hf, hDP, hed⟩ := verifyPassport_true_parts hv'
    simp only at hd hf hed
    rw [hmsg] at hed
    unfold edVerifyHex at hed
    simp only [Bool.and_eq_true, decide_eq_true_eq] at hed
    cases hpe : p.expiresAt with
    | none =>
      rw [hpe] at hed
      exact canonPassport_none_ne_some p.did p.publicKey p.capabilities p.issuedAt e' hed.1
    | some e =>
      rw [hpe] at hed
      have := canonPassport_expiresAt_inj hed.1
      rw [hpe] at hne
      exact hne (by rw [this])

/-- Fallback passport value (used only to name computed passports). -/
def defaultPassport : Passport :=
  { did := [], publicKey := [], capabilities := [], issuedAt := 0,
    expiresAt := none, signature := SigVal.raw [] }

/-- Concrete honest key pair for witnesses. -/
def kpW : KeyPair := { publicKey := pkW, privateKey := pkW }

/-- Concrete passport created with a 50-second TTL at time 100. -/
def pW : Passport := (createPassport kpW [[110]] (some 50) 100).getD defaultPassport

theorem kpW_valid : ValidKeyPair kpW :=
  ⟨rfl, by decide, by decide⟩

theorem pW_spec : createPassport kpW [[110]] (some 50) 100 = some pW := by decide

theorem C2_tamper_detection_witness :
    verifyPassport pW true none 500 = true ∧
    verifyPassport { pW with did := [100] } false none 0 = false ∧
    verifyPassport { pW with publicKey := [97] } false none 0 = false ∧
    verifyPassport { pW with capabilities := [] } false none 0 = false ∧
    verifyPassport { pW with issuedAt := 101 } false none 0 = false ∧
    verifyPassport { pW with expiresAt := some 9999 } false none 0 = false :=
  have h := C2_tamper_detection kpW [[110]] (some 50) 100 pW kpW_valid pW_spec
  ⟨h.1 none 500,
   h.2.1 [100] false none 0 (by decide),
   h.2.2.1 [97] false none 0 (by decide),
   h.2.2.2.1 [] false none 0 (by decide),
   h.2.2.2.2.1 101 false none 0 (by decide),
   h.2.2.2.2.2 9999 false none 0 (by decide)⟩

/-- C3: with an explicit `currentTime`, a passport carrying `expiresAt` is
rejected exactly when `currentTime ≥ expiresAt`; `ignoreExpiration` reduces
verification to the signature checks; `isExpired` is
`currentTime ≥ expiresAt`, and `false` without an `expiresAt`. -/
theorem C3_expiration :
    (∀ (p : Passport) (e T now : Nat), p.expiresAt = some e →
      (T ≥ e → verifyPassport p false (some T) now = false) ∧
      verifyPassport p true (some T) now = signatureChecks p ∧
      isExpired p (some T) now = decide (T ≥ e)) ∧
    (∀ (q : Passport) (ct : Option Nat) (now' : Nat), q.expiresAt = none →
      isExpired q ct now' = false) := by
  constructor
  · intro p e T now hpe
    refine ⟨?_, ?_, ?_⟩
    · intro hT
      unfold verifyPassport
      rw [hpe]
      split_ifs with h1 h2 h3 h4 <;> try rfl
      exfalso
      apply h4
      simp
      exact hT
    · rfl
    · unfold isExpired
      rw [hpe]
      simp
  · intro q ct now' hq
    unfold isExpired
    rw [hq]

theorem C3_expiration_witness :
    (verifyPassport { defaultPassport with expiresAt := some 5 } false (some 7) 0 = false ∧
     verifyPassport { defaultPassport with expiresAt := some 5 } true (some 7) 0 =
       signatureChecks { defaultPassport with expiresAt := some 5 } ∧
     isExpired { defaultPassport with expiresAt := some 5 } (some 7) 0 = decide (7 ≥ 5)) ∧
    isExpired defaultPassport (some 7) 0 = false :=
  have h := C3_expiration
  have h1 := h.1 { defaultPassport with expiresAt := some 5 } 5 7 0 rfl
  ⟨⟨h1.1 (by decide), h1.2.1, h1.2.2⟩, h.2 defaultPassport (some 7) 0 rfl⟩

/-! ## Passport serialization (`serializePassport` / `deserializePassport`)

`serializePassport` is `JSON.stringify(passport)` and `deserializePassport`
is `JSON.parse` plus field validation.  Since `parse ∘ stringify` is the
identity on JSON-safe objects, the pair is modelled at the JSON-object
level: an object is an association list of fields in insertion order. -/

def keySignature : List Nat := [115, 105, 103, 110, 97, 116, 117, 114, 101]

/-- A parsed JSON value as far as passports are concerned. -/
inductive JVal where
  | jstr (s : List Nat)
  | jnum (n : Nat)
  | jarr (xs : List (List Nat))
  | jsig (v : SigVal)
  | jbool (b : Bool)
  | jnull
  deriving DecidableEq, Repr

/-- JS truthiness of a field access (`undefined` for a missing key). -/
def truthy : Option JVal → Bool
  | none => false
  | some (JVal.jstr s) => !s.isEmpty
  | some (JVal.jnum n) => decide (n ≠ 0)
  | some (JVal.jarr _) => true
  | some (JVal.jsig v) => sigTruthy v
  | some (JVal.jbool b) => b
  | some JVal.jnull => false

/-- `typeof x === 'number'`. -/
def isJNum : Option JVal → Bool
  | some (JVal.jnum _) => true
  | _ => false

/-- `Array.isArray(x)`. -/
def isJArr : Option JVal → Bool
  | some (JVal.jarr _) => true
  | _ => false

/-- Property access on a parsed object (first binding wins). -/
def jget : List (List Nat × JVal) → List Nat → Option JVal
  | [], _ => none
  | (k, v) :: t, key => if k = key then some v else jget t key

/-- `JSON.stringify(passport)`: the passport's fields in insertion order —
`did, publicKey, capabilities, issuedAt, signature` and then `expiresAt`
when present. -/
def serializePassport (p : Passport) : List (List Nat × JVal) :=
  [(keyDid, JVal.jstr p.did), (keyPublicKey, JVal.jstr p.publicKey),
   (keyCaps, JVal.jarr p.capabilities), (keyIssuedAt, JVal.jnum p.issuedAt),
   (keySignature, JVal.jsig p.signature)] ++
  (match p.expiresAt with
   | none => []
   | some e => [(keyExpiresAt, JVal.jnum e)])

/-- `deserializePassport`: `JSON.parse` plus the validation
`!did || !publicKey || !signature || typeof issuedAt !== 'number' ||
!Array.isArray(capabilities)`; then the five known fields are copied —
`expiresAt` is not among them, and unknown fields are never examined.
`none` models the throw.  (The source copies the fields untyped; for the
shapes `serializePassport` emits they are exactly the ones matched here.) -/
def deserializePassport (obj : List (List Nat × JVal)) : Option Passport :=
  if truthy (jget obj keyDid) = false then none
  else if truthy (jget obj keyPublicKey) = false then none
  else if truthy (jget obj keySignature) = false then none
  else if isJNum (jget obj keyIssuedAt) = false then none
  else if isJArr (jget obj keyCaps) = false then none
  else
    match jget obj keyDid, jget obj keyPublicKey, jget obj keyCaps,
        jget obj keySignature, jget obj keyIssuedAt with
    | some (JVal.jstr d), some (JVal.jstr pkh), some (JVal.jarr cs),
      some (JVal.jsig sg), some (JVal.jnum n) =>
      some { did := d, publicKey := pkh, capabilities := cs, issuedAt := n,
             expiresAt := none, signature := sg }
    | _, _, _, _, _ => none

theorem deserialize_serialize (d pk : List Nat) (cs : List (List Nat)) (i : Nat)
    (e : Option Nat) (sg : SigVal) (extras : List (List Nat × JVal))
    (hd : d ≠ []) (hpk : pk ≠ []) (hsig : sigTruthy sg = true) :
    deserializePassport
        (serializePassport ⟨d, pk, cs, i, e, sg⟩ ++ extras) =
      some ⟨d, pk, cs, i, none, sg⟩ := by
  cases e <;>
    (cases d with
     | nil => exact absurd rfl hd
     | cons dc dt =>
       cases pk with
       | nil => exact absurd rfl hpk
       | cons pc pt =>
         cases sg with
         | real m k => rfl
         | raw s =>
           cases s with
           | nil => exact absurd hsig (by decide)
           | cons sc st => rfl)

/-- C1, amended: round-tripping preserves the five core fields and drops
`expiresAt`; fields beyond the known ones are ignored, not rejected; the
round trip is the identity exactly on passports without `expiresAt`. -/
theorem C1_serialize_roundtrip_amended :
    ∀ (p : Passport) (extras : List (List Nat × JVal)),
      p.did ≠ [] → p.publicKey ≠ [] → sigTruthy p.signature = true →
      deserializePassport (serializePassport p ++ extras) =
        some { p with expiresAt := none } ∧
      (p.expiresAt = none →
        deserializePassport (serializePassport p ++ extras) = some p) := by
  intro p extras hd hpk hsig
  obtain ⟨d, pk, cs, i, e, sg⟩ := p
  constructor
  · exact deserialize_serialize d pk cs i e sg extras hd hpk hsig
  · intro he
    replace he : e = none := he
    subst he
    exact deserialize_serialize d pk cs i none sg extras hd hpk hsig

theorem C1_serialize_roundtrip_amended_witness :
    deserializePassport (serializePassport pW ++ [([120], JVal.jnum 1)]) =
      some { pW with expiresAt := none } ∧
    (pW.expiresAt = none →
      deserializePassport (serializePassport pW ++ [([120], JVal.jnum 1)]) = some pW) :=
  C1_serialize_roundtrip_amended pW [([120], JVal.jnum 1)]
    (by decide) (by decide) (by decide)

/-- C1, counterexample: for the TTL passport `pW` the round trip loses
`expiresAt` (so is not the identity), the round-tripped passport fails
verification although `pW` verifies under the same options, and an input
with an unknown extra field is accepted rather than rejected. -/
theorem C1_serialize_roundtrip_counterexample :
    deserializePassport (serializePassport pW) ≠ some pW ∧
    verifyPassport pW false (some 120) 0 = true ∧
    deserializePassport (serializePassport pW) = some { pW with expiresAt := none } ∧
    verifyPassport { pW with expiresAt := none } false (some 120) 0 = false ∧
    (deserializePassport (serializePassport pW ++ [([120], JVal.jnum 1)])).isSome = true :=
  ⟨by decide, by decide, by decide, by decide, by decide⟩

/-! ## Key rotation proofs (`createKeyRotationProof` / `verifyKeyRotationProof`) -/

/-- `KeyRotationProof`: signed by the old key, authorizes the new key. -/
structure KeyRotationProof where
  oldDid : List Nat
  newDid : List Nat
  newPublicKey : List Nat
  signature : SigVal
  timestamp : Nat
  deriving DecidableEq, Repr

/-- `createKeyRotationProof(oldKeypair, newKeypair)`; `now` is the clock
made explicit; `none` models the throws from `publicKeyToDID`. -/
def createKeyRotationProof (oldKeypair newKeypair : KeyPair) (now : Nat) :
    Option KeyRotationProof :=
  match publicKeyToDID oldKeypair.publicKey, publicKeyToDID newKeypair.publicKey with
  | some oldDid, some newDid =>
    let newPublicKey := toHex newKeypair.publicKey
    let payload := canonRotationPayload oldDid newDid newPublicKey now
    some { oldDid := oldDid, newDid := newDid, newPublicKey := newPublicKey,
           signature := signHex payload oldKeypair.privateKey, timestamp := now }
  | _, _ => none

/-- `verifyKeyRotationProof(proof)`: DID validations, recover the old public
key, verify the signature over the recomputed canonical payload. -/
def verifyKeyRotationProof (proof : KeyRotationProof) : Bool :=
  if isValidDID proof.oldDid = false then false
  else if isValidDID proof.newDid = false then false
  else
    match didToPublicKey proof.oldDid with
    | none => false
    | some oldPublicKey =>
      edVerifyHex proof.signature
        (canonRotationPayload proof.oldDid proof.newDid proof.newPublicKey proof.timestamp)
        oldPublicKey

theorem verifyRotation_true_parts {q : KeyRotationProof}
    (h : verifyKeyRotationProof q = true) :
    ∃ opk, didToPublicKey q.oldDid = some opk ∧
      edVerifyHex q.signature
        (canonRotationPayload q.oldDid q.newDid q.newPublicKey q.timestamp) opk = true := by
  unfold verifyKeyRotationProof at h
  by_cases h1 : isValidDID q.oldDid = false
  · rw [if_pos h1] at h; cases h
  rw [if_neg h1] at h
  by_cases h2 : isValidDID q.newDid = false
  · rw [if_pos h2] at h; cases h
  rw [if_neg h2] at h
  cases hd : didToPublicKey q.oldDid with
  | none => rw [hd] at h; cases h
  | some opk =>
    rw [hd] at h
    exact ⟨opk, rfl, h⟩

theorem createRotation_fields {a b : KeyPair} {ts : Nat} {pr : KeyRotationProof}
    (ha : ValidKeyPair a) (hb : ValidKeyPair b)
    (h : createKeyRotationProof a b ts = some pr) :
    pr.oldDid = didHeader ++ base58encode (237 :: 1 :: a.publicKey) ∧
    pr.newDid = didHeader ++ base58encode (237 :: 1 :: b.publicKey) ∧
    pr.newPublicKey = toHex b.publicKey ∧ pr.timestamp = ts ∧
    pr.signature = SigVal.real
      (canonRotationPayload (didHeader ++ base58encode (237 :: 1 :: a.publicKey))
        (didHeader ++ base58encode (237 :: 1 :: b.publicKey)) (toHex b.publicKey) ts)
      a.privateKey ∧
    isValidDID pr.oldDid = true ∧ isValidDID pr.newDid = true ∧
    didToPublicKey pr.oldDid = some a.publicKey := by
  obtain ⟨hpa, h32a, hba⟩ := ha
  obtain ⟨hpb, h32b, hbb⟩ := hb
  obtain ⟨henca, -, -, hvalida, hparsea⟩ := did_roundtrip_core a.publicKey h32a hba
  obtain ⟨hencb, -, -, hvalidb, -⟩ := did_roundtrip_core b.publicKey h32b hbb
  unfold createKeyRotationProof at h
  rw [henca, hencb] at h
  injection h with hp
  subst hp
  exact ⟨rfl, rfl, rfl, rfl, rfl, hvalida, hvalidb, hparsea⟩

/-- C5: a rotation proof created from two honest key pairs verifies, and
altering any single field — `oldDid`, `newDid`, `newPublicKey`,
`timestamp`, or `signature` — makes verification return `false`. -/
theorem C5_rotation_proof :
    ∀ (a b : KeyPair) (ts : Nat) (pr : KeyRotationProof),
      ValidKeyPair a → ValidKeyPair b →
      createKeyRotationProof a b ts = some pr →
      verifyKeyRotationProof pr = true ∧
      (∀ o', o' ≠ pr.oldDid →
        verifyKeyRotationProof { pr with oldDid := o' } = false) ∧
      (∀ n', n' ≠ pr.newDid →
        verifyKeyRotationProof { pr with newDid := n' } = false) ∧
      (∀ pk', pk' ≠ pr.newPublicKey →
        verifyKeyRotationProof { pr with newPublicKey := pk' } = false) ∧
      (∀ t', t' ≠ pr.timestamp →
        verifyKeyRotationProof { pr with timestamp := t' } = false) ∧
      (∀ sg', sg' ≠ pr.signature →
        verifyKeyRotationProof { pr with signature := sg' } = false) := by
  intro a b ts pr ha hb hc
  obtain ⟨hod, hnd, hnpk, hts, hsig, hvo, hvn, hpo⟩ := createRotation_fields ha hb hc
  obtain ⟨hpa, h32a, hba⟩ := ha
  have hmsg : pr.signature = SigVal.real
      (canonRotationPayload pr.oldDid pr.newDid pr.newPublicKey pr.timestamp)
      a.privateKey := by
    rw [hsig, hod, hnd, hnpk, hts]
  refine ⟨?_, ?_, ?_, ?_, ?_, ?_⟩
  · simp [verifyKeyRotationProof, hvo, hvn, hpo, hmsg, edVerifyHex, ← hpa]
  · -- oldDid mutation
    intro o' hne
    by_contra hv
    have hv' : verifyKeyRotationProof { pr with oldDid := o' } = true := by
      revert hv; cases verifyKeyRotationProof { pr with oldDid := o' } <;> simp
    obtain ⟨opk, hd, hed⟩ := verifyRotation_true_parts hv'
    simp only at hd hed
    rw [hmsg] at hed
    unfold edVerifyHex at hed
    simp only [Bool.and_eq_true, decide_eq_true_eq] at hed
    exact hne (canonRotation_oldDid_inj hed.1).symm
  · -- newDid mutation
    intro n' hne
    by_contra hv
    have hv' : verifyKeyRotationProof { pr with newDid := n' } = true := by
      revert hv; cases verifyKeyRotationProof { pr with newDid := n' } <;> simp
    obtain ⟨opk, hd, hed⟩ := verifyRotation_true_parts hv'
    simp only at hd hed
    rw [hmsg] at hed
    unfold edVerifyHex at hed
    simp only [Bool.and_eq_true, decide_eq_true_eq] at hed
    exact hne (canonRotation_newDid_inj hed.1).symm
  · -- newPublicKey mutation
    intro pk' hne
    by_contra hv
    have hv' : verifyKeyRotationProof { pr with newPublicKey := pk' } = true := by
      revert hv; cases verifyKeyRotationProof { pr with newPublicKey := pk' } <;> simp
    obtain ⟨opk, hd, hed⟩ := verifyRotation_true_parts hv'
    simp only at hd hed
    rw [hmsg] at hed
    unfold edVerifyHex at hed
    simp only [Bool.and_eq_true, decide_eq_true_eq] at hed
    exact hne (canonRotation_newPk_inj hed.1).symm
  · -- timestamp mutation
    intro t' hne
    by_contra hv
    have hv' : verifyKeyRotationProof { pr with timestamp := t' } = true := by
      revert hv; cases verifyKeyRotationProof { pr with timestamp := t' } <;> simp
    obtain ⟨opk, hd, hed⟩ := verifyRotation_true_parts hv'
    simp only at hd hed
    rw [hmsg] at hed
    unfold edVerifyHex at hed
    simp only [Bool.and_eq_true, decide_eq_true_eq] at hed
    exact hne (canonRotation_ts_inj hed.1).symm
  · -- signature mutation
    intro sg' hne
    by_contra hv
    have hv' : verifyKeyRotationProof { pr with signature := sg' } = true := by
      revert hv; cases verifyKeyRotationProof { pr with signature := sg' } <;> simp
    obtain ⟨opk, hd, hed⟩ := verifyRotation_true_parts hv'
    simp only at hd hed
    rw [hpo] at hd
    injection hd with hd
    cases sg' with
    | raw s => exact absurd hed (by simp [edVerifyHex])
    | real m' k' =>
      unfold edVerifyHex at hed
      simp only [Bool.and_eq_true, decide_eq_true_eq] at hed
      obtain ⟨hm, hk⟩ := hed
      rw [← hd, hpa] at hk
      have hk' : k' = a.privateKey := hk
      apply hne
      rw [hmsg, hm, hk']

/-- A second concrete 32-byte key. -/
def pkW2 : List Nat := List.replicate 32 9

/-- A third concrete 32-byte key, distinct from `pkW2`. -/
def pkW3 : List Nat := List.replicate 32 11

def kpW2 : KeyPair := { publicKey := pkW2, privateKey := pkW2 }

/-- Concrete rotation proof from `kpW` to `kpW2` at time 7. -/
def prW : KeyRotationProof :=
  (createKeyRotationProof kpW kpW2 7).getD
    { oldDid := [], newDid := [], newPublicKey := [],
      signature := SigVal.raw [], timestamp := 0 }

theorem kpW2_valid : ValidKeyPair kpW2 :=
  ⟨rfl, by decide, by decide⟩

theorem prW_spec : createKeyRotationProof kpW kpW2 7 = some prW := by decide

theorem C5_rotation_proof_witness :
    verifyKeyRotationProof prW = true ∧
    verifyKeyRotationProof { prW with oldDid := [122] } = false ∧
    verifyKeyRotationProof { prW with newDid := [122] } = false ∧
    verifyKeyRotationProof { prW with newPublicKey := [97] } = false ∧
    verifyKeyRotationProof { prW with timestamp := 8 } = false ∧
    verifyKeyRotationProof { prW with signature := SigVal.raw [97] } = false :=
  have h := C5_rotation_proof kpW kpW2 7 prW kpW_valid kpW2_valid prW_spec
  ⟨h.1,
   h.2.1 [122] (by decide),
   h.2.2.1 [122] (by decide),
   h.2.2.2.1 [97] (by decide),
   h.2.2.2.2.1 8 (by decide),
   h.2.2.2.2.2 (SigVal.raw [97]) (by decide)⟩

/-- A rotation proof whose `newPublicKey` field is the hex of `pkW3`, while
`newDid` embeds `pkW2`; the old key signs the mismatched payload. -/
def prMismatch : KeyRotationProof :=
  { oldDid := (publicKeyToDID pkW).getD [],
    newDid := (publicKeyToDID pkW2).getD [],
    newPublicKey := toHex pkW3,
    signature := SigVal.real
      (canonRotationPayload ((publicKeyToDID pkW).getD [])
        ((publicKeyToDID pkW2).getD []) (toHex pkW3) 5)
      pkW,
    timestamp := 5 }

/-- C6: `verifyKeyRotationProof` accepts a proof whose `newPublicKey` does
not match the public key embedded in `newDid`: it never compares the two. -/
theorem C6_newPublicKey_unchecked :
    verifyKeyRotationProof prMismatch = true ∧
    didToPublicKey prMismatch.newDid = some pkW2 ∧
    prMismatch.newPublicKey ≠ toHex pkW2 :=
  ⟨by decide, by decide, by decide⟩

/-! ## Ring buffer (`packages/events/src/ring-buffer.ts`) -/

/-- `RingBuffer<T>`: fixed-length backing array (of `Option`, for the
`undefined` holes), write head, current size, capacity. -/
structure RingBuffer (α : Type) where
  data : List (Option α)
  head : Nat
  size : Nat
  capacity : Nat
  deriving Repr, DecidableEq

/-- The constructor; `none` models the throw on capacity < 1. -/
def mkRingBuffer (α : Type) (capacity : Nat) : Option (RingBuffer α) :=
  if capacity < 1 then none
  else some { data := List.replicate capacity none, head := 0, size := 0,
              capacity := capacity }

/-- `push(item)`: overwrite slot `head`, advance `head` modulo capacity,
grow `size` up to capacity. -/
def rbPush {α : Type} (b : RingBuffer α) (item : α) : RingBuffer α :=
  { data := b.data.set b.head (some item),
    head := (b.head + 1) % b.capacity,
    size := if b.size < b.capacity then b.size + 1 else b.size,
    capacity := b.capacity }

/-- `toArray()` before the `as T` casts: slots in insertion order. -/
def rbToArrayO {α : Type} (b : RingBuffer α) : List (Option α) :=
  if b.size = 0 then []
  else (List.range b.size).map (fun i =>
    b.data.getD (((if b.size < b.capacity then 0 else b.head) + i) % b.capacity) none)

/-- `toArray()`: the invariant below shows every live slot is occupied, so
dropping the `none`s models the source's `as T` casts. -/
def rbToArray {α : Type} (b : RingBuffer α) : List α := (rbToArrayO b).reduceOption

/-- States reachable from the constructor. -/
def RBok {α : Type} (b : RingBuffer α) : Prop :=
  b.data.length = b.capacity ∧ 1 ≤ b.capacity ∧ b.size ≤ b.capacity ∧
  b.head < b.capacity ∧ (b.size < b.capacity → b.head = b.size)

theorem getD_set_self {α : Type} (l : List α) (i : Nat) (x d : α) (h : i < l.length) :
    (l.set i x).getD i d = x := by
  simp [List.getD, List.getElem?_set_self, h]

theorem getD_set_ne {α : Type} (l : List α) (i j : Nat) (x d : α) (h : i ≠ j) :
    (l.set i x).getD j d = l.getD j d := by
  simp [List.getD, List.getElem?_set_ne h]

theorem rbToArrayO_eq_map {α : Type} (b : RingBuffer α) :
    rbToArrayO b = (List.range b.size).map (fun i =>
      b.data.getD (((if b.size < b.capacity then 0 else b.head) + i) % b.capacity) none) := by
  unfold rbToArrayO
  by_cases h : b.size = 0
  · rw [if_pos h, h]
    simp
  · rw [if_neg h]

theorem RBok_push {α : Type} {b : RingBuffer α} (hok : RBok b) (x : α) :
    RBok (rbPush b x) := by
  obtain ⟨hlen, hc1, hsc, hhc, hhs⟩ := hok
  refine ⟨by simp [rbPush, hlen], hc1, ?_, ?_, ?_⟩
  · simp only [rbPush]
    split_ifs with h
    · omega
    · exact hsc
  · exact Nat.mod_lt _ (by omega)
  · simp only [rbPush]
    split_ifs with h
    · intro h2
      rw [hhs h]
      exact Nat.mod_eq_of_lt (by omega)
    · intro h2
      omega

theorem mod_shift_ne {cap head k : Nat} (hh : head < cap) (hk : 0 < k)
    (hk2 : k < cap) : (head + k) % cap ≠ head := by
  intro h
  rcases Nat.lt_or_ge (head + k) cap with hlt | hge
  · rw [Nat.mod_eq_of_lt hlt] at h
    omega
  · have h2 : head + k - cap < cap := by omega
    rw [Nat.mod_eq_sub_mod hge, Nat.mod_eq_of_lt h2] at h
    omega

theorem rbToArrayO_push {α : Type} (b : RingBuffer α) (x : α) (hok : RBok b) :
    rbToArrayO (rbPush b x) =
      (if b.size < b.capacity then rbToArrayO b else (rbToArrayO b).drop 1) ++ [some x] := by
  obtain ⟨hlen, hc1, hsc, hhc, hhs⟩ := hok
  by_cases hlt : b.size < b.capacity
  · -- growing: head = size, new element lands at index `size`
    rw [if_pos hlt]
    have hhead : b.head = b.size := hhs hlt
    have hLHS : rbToArrayO (rbPush b x) = (List.range (b.size + 1)).map
        (fun i => (b.data.set b.head (some x)).getD i none) := by
      rw [rbToArrayO_eq_map]
      simp only [rbPush, if_pos hlt]
      have hstart : (if b.size + 1 < b.capacity then 0 else (b.head + 1) % b.capacity) = 0 := by
        by_cases h2 : b.size + 1 < b.capacity
        · rw [if_pos h2]
        · rw [if_neg h2, hhead]
          have e : b.size + 1 = b.capacity := by omega
          rw [e, Nat.mod_self]
      rw [hstart]
      apply List.map_congr_left
      intro i hi
      have hi' : i < b.size + 1 := List.mem_range.mp hi
      rw [Nat.zero_add, Nat.mod_eq_of_lt (by omega)]
    have hRHS : rbToArrayO b = (List.range b.size).map
        (fun i => b.data.getD i none) := by
      rw [rbToArrayO_eq_map, if_pos hlt]
      apply List.map_congr_left
      intro i hi
      have hi' : i < b.size := List.mem_range.mp hi
      rw [Nat.zero_add, Nat.mod_eq_of_lt (by omega)]
    rw [hLHS, hRHS, List.range_succ, List.map_append]
    congr 1
    · apply List.map_congr_left
      intro i hi
      have hi' : i < b.size := List.mem_range.mp hi
      rw [getD_set_ne]
      omega
    · simp only [List.map_cons, List.map_nil]
      rw [hhead, getD_set_self]
      omega
  · -- full: overwrite the oldest slot
    rw [if_neg hlt]
    have hsize : b.size = b.capacity := by omega
    have hLHS : rbToArrayO (rbPush b x) = (List.range b.capacity).map
        (fun i => (b.data.set b.head (some x)).getD
          (((b.head + 1) % b.capacity + i) % b.capacity) none) := by
      rw [rbToArrayO_eq_map]
      simp only [rbPush]
      rw [if_neg hlt, if_neg hlt, hsize]
    have hRHS : rbToArrayO b = (List.range b.capacity).map
        (fun i => b.data.getD ((b.head + i) % b.capacity) none) := by
      rw [rbToArrayO_eq_map, if_neg hlt, hsize]
    rw [hLHS, hRHS]
    obtain ⟨m, hm⟩ : ∃ m, b.capacity = m + 1 := ⟨b.capacity - 1, by omega⟩
    rw [hm]
    have hdrop : ((List.range (m + 1)).map
        (fun i => b.data.getD ((b.head + i) % (m + 1)) none)).drop 1
        = (List.range m).map
          (fun i => b.data.getD ((b.head + (i + 1)) % (m + 1)) none) := by
      rw [List.range_succ_eq_map, List.map_cons, List.drop_one, List.tail_cons,
        List.map_map]
      apply List.map_congr_left
      intro i hi
      rfl
    rw [hdrop, List.range_succ, List.map_append]
    congr 1
    · -- surviving slots shift by one
      apply List.map_congr_left
      intro i hi
      have hi' : i < m := List.mem_range.mp hi
      have e1 : ((b.head + 1) % (m + 1) + i) % (m + 1) = (b.head + (i + 1)) % (m + 1) := by
        rw [Nat.mod_add_mod]
        congr 1
        omega
      rw [e1, getD_set_ne]
      exact (mod_shift_ne (by omega) (by omega) (by omega)).symm
    · -- the overwritten slot carries the new element
      simp only [List.map_cons, List.map_nil]
      have e1 : ((b.head + 1) % (m + 1) + m) % (m + 1) = b.head := by
        rw [Nat.mod_add_mod]
        have e2 : b.head + 1 + m = b.head + (m + 1) := by omega
        rw [e2, Nat.add_mod_right]
        exact Nat.mod_eq_of_lt (by omega)
      rw [e1, getD_set_self]
      omega

/-- Iterated `push`. -/
def rbPushAll {α : Type} (b : RingBuffer α) (xs : List α) : RingBuffer α :=
  xs.foldl rbPush b

theorem rbCap_push {α : Type} (b : RingBuffer α) (x : α) :
    (rbPush b x).capacity = b.capacity := rfl

theorem RBok_pushAll {α : Type} : ∀ (xs : List α) (b : RingBuffer α),
    RBok b → RBok (rbPushAll b xs) := by
  intro xs
  induction xs with
  | nil => intro b hok; exact hok
  | cons x t ih => intro b hok; exact ih (rbPush b x) (RBok_push hok x)

theorem rbCap_pushAll {α : Type} : ∀ (xs : List α) (b : RingBuffer α),
    (rbPushAll b xs).capacity = b.capacity := by
  intro xs
  induction xs with
  | nil => intro b; rfl
  | cons x t ih => intro b; exact ih (rbPush b x)

theorem rbSize_pushAll {α : Type} : ∀ (xs : List α) (b : RingBuffer α), RBok b →
    (rbPushAll b xs).size = min (b.size + xs.length) b.capacity := by
  intro xs
  induction xs with
  | nil =>
    intro b hok
    obtain ⟨-, -, hsc, -, -⟩ := hok
    simp [rbPushAll]
    omega
  | cons x t ih =>
    intro b hok
    have e := ih (rbPush b x) (RBok_push hok x)
    obtain ⟨-, hc1, hsc, -, -⟩ := hok
    show (rbPushAll (rbPush b x) t).size = _
    rw [e, rbCap_push]
    have hps : (rbPush b x).size = if b.size < b.capacity then b.size + 1 else b.size := rfl
    rw [hps]
    split_ifs with h
    · simp only [List.length_cons]
      omega
    · simp only [List.length_cons]
      omega

theorem reduceOption_map_some {α : Type} (l : List α) :
    (l.map some).reduceOption = l := by
  induction l with
  | nil => rfl
  | cons a t ih => simp [List.reduceOption_cons_of_some, ih]

theorem rbToArrayO_pushAll {α : Type} : ∀ (xs : List α) (b0 : RingBuffer α),
    RBok b0 → b0.size = 0 →
    rbToArrayO (rbPushAll b0 xs) = (xs.drop (xs.length - b0.capacity)).map some := by
  intro xs
  induction xs using List.reverseRecOn with
  | nil =>
    intro b0 hok hempty
    show rbToArrayO b0 = _
    unfold rbToArrayO
    rw [if_pos hempty]
    simp
  | append_singleton t x ih =>
    intro b0 hok hempty
    have hfold : rbPushAll b0 (t ++ [x]) = rbPush (rbPushAll b0 t) x := by
      unfold rbPushAll
      rw [List.foldl_append]
      rfl
    rw [hfold, rbToArrayO_push _ _ (RBok_pushAll t b0 hok), ih b0 hok hempty]
    have hsz : (rbPushAll b0 t).size = min t.length b0.capacity := by
      rw [rbSize_pushAll t b0 hok, hempty, Nat.zero_add]
    have hcap : (rbPushAll b0 t).capacity = b0.capacity := rbCap_pushAll t b0
    obtain ⟨-, hc1, -, -, -⟩ := hok
    by_cases hlt : t.length < b0.capacity
    · rw [if_pos (by rw [hsz, hcap]; omega)]
      have e1 : t.length - b0.capacity = 0 := by omega
      have e2 : (t ++ [x]).length - b0.capacity = 0 := by
        simp only [List.length_append, List.length_cons, List.length_nil]
        omega
      rw [e1, e2, List.drop_zero, List.drop_zero, List.map_append]
      rfl
    · rw [if_neg (by rw [hsz, hcap]; omega)]
      have e2 : (t ++ [x]).length - b0.capacity = t.length - b0.capacity + 1 := by
        simp only [List.length_append, List.length_cons, List.length_nil]
        omega
      rw [e2]
      have e3 : (t ++ [x]).drop (t.length - b0.capacity + 1)
          = t.drop (t.length - b0.capacity + 1) ++ [x] := by
        rw [List.drop_append_of_le_length (by omega)]
      rw [e3, List.map_append]
      congr 1
      rw [← List.map_drop, List.drop_drop]

theorem rbToArray_pushAll {α : Type} (xs : List α) (b0 : RingBuffer α)
    (hok : RBok b0) (hempty : b0.size = 0) :
    rbToArray (rbPushAll b0 xs) = xs.drop (xs.length - b0.capacity) := by
  unfold rbToArray
  rw [rbToArrayO_pushAll xs b0 hok hempty, reduceOption_map_some]

theorem mkRingBuffer_spec {α : Type} {c : Nat} {rb : RingBuffer α}
    (h : mkRingBuffer α c = some rb) :
    RBok rb ∧ rb.capacity = c ∧ rb.size = 0 := by
  unfold mkRingBuffer at h
  by_cases hc : c < 1
  · rw [if_pos hc] at h; cases h
  rw [if_neg hc] at h
  injection h with h
  subst h
  refine ⟨⟨by simp, ?_, ?_, ?_, ?_⟩, rfl, rfl⟩
  · exact (by omega : 1 ≤ c)
  · exact Nat.zero_le c
  · exact (by omega : 0 < c)
  · intro h2
    rfl

/-! ## Agent event stream (`packages/events/src/stream.ts`)

Event types, sources, ids and payloads are opaque values compared only by
equality; they are abstracted as numbers.  The clock (`Date.now()`) and the
UUID generator are explicit arguments of `emit`. -/

/-- `AgentEvent` from `@qualia/types`. -/
structure AgentEvent where
  id : Nat
  type : Nat
  data : Nat
  timestamp : Nat
  sequence : Nat
  source : Option Nat
  deriving DecidableEq, Repr

/-- `EventFilter` from `@qualia/types`: each field optional. -/
structure EventFilter where
  types : Option (List Nat)
  sources : Option (List Nat)
  afterSequence : Option Nat
  deriving DecidableEq, Repr

/-- `matchesFilter(event, filter)`. -/
def matchesFilter (event : AgentEvent) (filter : EventFilter) : Bool :=
  if (match filter.types with
      | some ts => decide (0 < ts.length) && !(ts.contains event.type)
      | none => false) then false
  else if (match filter.sources with
      | some ss => decide (0 < ss.length) &&
          (match event.source with
           | none => true
           | some sv => !(ss.contains sv))
      | none => false) then false
  else if (match filter.afterSequence with
      | some n => decide (event.sequence ≤ n)
      | none => false) then false
  else true

/-- A registered listener; `ok = false` models a callback that throws. -/
structure Listener where
  filter : Option EventFilter
  ok : Bool
  deriving DecidableEq, Repr

/-- Stream state: sequence counter, ring buffer, listener set in insertion
order. -/
structure AgentEventStream where
  sequence : Nat
  buffer : RingBuffer AgentEvent
  listeners : List Listener
  deriving Repr, DecidableEq

/-- The constructor (`bufferSize` defaulting to 1000); `none` models the
ring buffer's throw on a capacity below 1. -/
def mkAgentEventStream (bufferSize : Option Nat) : Option AgentEventStream :=
  match mkRingBuffer AgentEvent (bufferSize.getD 1000) with
  | none => none
  | some rb => some { sequence := 0, buffer := rb, listeners := [] }

/-- `!listener.filter || matchesFilter(event, listener.filter)`. -/
def shouldNotify (l : Listener) (e : AgentEvent) : Bool :=
  match l.filter with
  | none => true
  | some f => matchesFilter e f

/-- The listener loop of `emit`.  There is no try/catch in the source, so a
throwing callback aborts the loop: the result is the indices (in
registration order) of the listeners whose callbacks were invoked, and
whether an exception escaped. -/
def notifyRun : List Listener → AgentEvent → List Nat × Bool
  | [], _ => ([], false)
  | l :: rest, e =>
    if shouldNotify l e then
      if l.ok then
        let r := notifyRun rest e
        (0 :: r.1.map (· + 1), r.2)
      else ([0], true)
    else
      let r := notifyRun rest e
      (r.1.map (· + 1), r.2)

/-- Everything observable about one `emit` call. -/
structure EmitResult where
  state : AgentEventStream
  event : AgentEvent
  called : List Nat
  threw : Bool

/-- `emit(type, data, source?)`: build the event with the pre-increment
sequence counter, push it into the buffer, then notify matching listeners.
`eid` and `ts` are the fresh UUID and the clock. -/
def emit (s : AgentEventStream) (ty dat : Nat) (source : Option Nat)
    (eid ts : Nat) : EmitResult :=
  let event : AgentEvent :=
    { id := eid, type := ty, data := dat, timestamp := ts,
      sequence := s.sequence, source := source }
  let r := notifyRun s.listeners event
  { state := { s with sequence := s.sequence + 1, buffer := rbPush s.buffer event },
    event := event, called := r.1, threw := r.2 }

/-- `subscribe`: JS `Set.add` iterates in insertion order. -/
def subscribe (s : AgentEventStream) (l : Listener) : AgentEventStream :=
  { s with listeners := s.listeners ++ [l] }

/-- `getReplay(filter?)`. -/
def getReplay (s : AgentEventStream) (filter : Option EventFilter) : List AgentEvent :=
  match filter with
  | none => rbToArray s.buffer
  | some f => (rbToArray s.buffer).filter (fun e => matchesFilter e f)

/-- Arguments of one `emit` call. -/
structure EmitArgs where
  ty : Nat
  dat : Nat
  source : Option Nat
  eid : Nat
  ts : Nat
  deriving DecidableEq, Repr

/-- A sequence of `emit` calls, collecting the produced events. -/
def emitAll (s : AgentEventStream) : List EmitArgs → AgentEventStream × List AgentEvent
  | [] => (s, [])
  | a :: rest =>
    let r := emit s a.ty a.dat a.source a.eid a.ts
    let rr := emitAll r.state rest
    (rr.1, r.event :: rr.2)

theorem emitAll_spec : ∀ (args : List EmitArgs) (s : AgentEventStream),
    (emitAll s args).2.length = args.length ∧
    (emitAll s args).1.sequence = s.sequence + args.length ∧
    (∀ i (h : i < (emitAll s args).2.length),
      ((emitAll s args).2.get ⟨i, h⟩).sequence = s.sequence + i) := by
  intro args
  induction args with
  | nil =>
    intro s
    exact ⟨rfl, rfl, fun i h => absurd h (by simp [emitAll])⟩
  | cons a rest ih =>
    intro s
    obtain ⟨hlen, hseq, hget⟩ := ih (emit s a.ty a.dat a.source a.eid a.ts).state
    refine ⟨?_, ?_, ?_⟩
    · show ((emit s a.ty a.dat a.source a.eid a.ts).event :: _).length = _
      rw [List.length_cons, hlen]
      rfl
    · show (emitAll (emit s a.ty a.dat a.source a.eid a.ts).state rest).1.sequence = _
      rw [hseq]
      show s.sequence + 1 + rest.length = s.sequence + (rest.length + 1)
      omega
    · intro i h
      cases i with
      | zero => rfl
      | succ j =>
        have hj : j < (emitAll (emit s a.ty a.dat a.source a.eid a.ts).state rest).2.length := by
          revert h
          show j + 1 < ((emit s a.ty a.dat a.source a.eid a.ts).event :: _).length → _
          rw [List.length_cons]
          omega
        have := hget j hj
        show ((emitAll (emit s a.ty a.dat a.source a.eid a.ts).state rest).2.get ⟨j, hj⟩).sequence = _
        rw [this]
        show s.sequence + 1 + j = s.sequence + (j + 1)
        omega

/-- C7: from a fresh stream, the n-th `emit` (counting from 0) produces the
event with sequence n — sequences start at 0, increase by exactly one per
event, and the final counter equals the number of events, so no value is
ever assigned twice. -/
theorem C7_sequence_numbers :
    ∀ (cfg : Option Nat) (s0 : AgentEventStream) (args : List EmitArgs),
      mkAgentEventStream cfg = some s0 →
      (emitAll s0 args).2.length = args.length ∧
      (∀ i (h : i < (emitAll s0 args).2.length),
        ((emitAll s0 args).2.get ⟨i, h⟩).sequence = i) ∧
      (emitAll s0 args).1.sequence = args.length := by
  intro cfg s0 args hmk
  have hs0 : s0.sequence = 0 := by
    unfold mkAgentEventStream at hmk
    cases hrb : mkRingBuffer AgentEvent (cfg.getD 1000) with
    | none => rw [hrb] at hmk; cases hmk
    | some rb =>
      rw [hrb] at hmk
      injection hmk with h
      subst h
      rfl
  obtain ⟨hlen, hseq, hget⟩ := emitAll_spec args s0
  refine ⟨hlen, ?_, by rw [hseq, hs0, Nat.zero_add]⟩
  intro i h
  rw [hget i h, hs0, Nat.zero_add]

/-- Concrete stream with buffer capacity 3. -/
def streamW : AgentEventStream :=
  (mkAgentEventStream (some 3)).getD
    { sequence := 999, buffer := { data := [], head := 0, size := 0, capacity := 0 },
      listeners := [] }

/-- Four concrete emit calls. -/
def argsW : List EmitArgs :=
  [{ ty := 1, dat := 10, source := none, eid := 100, ts := 5 },
   { ty := 2, dat := 20, source := some 7, eid := 101, ts := 6 },
   { ty := 1, dat := 30, source := none, eid := 102, ts := 7 },
   { ty := 3, dat := 40, source := some 8, eid := 103, ts := 8 }]

theorem C7_sequence_numbers_witness :
    (emitAll streamW argsW).2.length = argsW.length ∧
    (∀ i (h : i < (emitAll streamW argsW).2.length),
      ((emitAll streamW argsW).2.get ⟨i, h⟩).sequence = i) ∧
    (emitAll streamW argsW).1.sequence = argsW.length :=
  C7_sequence_numbers (some 3) streamW argsW (by decide)

/-- The claim's reading of filter semantics, stated in its own words:
`types` absent or empty means any type; `sources` absent or empty means any
source (including an absent one), else the event's source must be present
and a member; `afterSequence = N` means `sequence > N`. -/
def FilterMatchesSpec (e : AgentEvent) (F : EventFilter) : Prop :=
  (∀ ts, F.types = some ts → ts ≠ [] → e.type ∈ ts) ∧
  (∀ ss, F.sources = some ss → ss ≠ [] → ∃ sv, e.source = some sv ∧ sv ∈ ss) ∧
  (∀ n, F.afterSequence = some n → n < e.sequence)

theorem matchesFilter_iff_spec (e : AgentEvent) (F : EventFilter) :
    matchesFilter e F = true ↔ FilterMatchesSpec e F := by
  obtain ⟨ot, os, oa⟩ := F
  unfold matchesFilter FilterMatchesSpec
  simp only
  split_ifs with h1 h2 h3
  · -- type restriction violated: no match, and the spec side fails too
    constructor
    · intro h; cases h
    · rintro ⟨hs1, -, -⟩
      exfalso
      cases ot with
      | none => cases h1
      | some ts =>
        simp only [Bool.and_eq_true, decide_eq_true_eq, Bool.not_eq_true'] at h1
        obtain ⟨hlen, hcon⟩ := h1
        have hne : ts ≠ [] := by
          intro hc
          subst hc
          simp at hlen
        have hmem := hs1 ts rfl hne
        simp at hcon
        exact hcon hmem
  · -- source restriction violated
    constructor
    · intro h; cases h
    · rintro ⟨-, hs2, -⟩
      exfalso
      cases os with
      | none => cases h2
      | some ss =>
        simp only [Bool.and_eq_true, decide_eq_true_eq] at h2
        obtain ⟨hlen, hsrc⟩ := h2
        have hne : ss ≠ [] := by
          intro hc
          subst hc
          simp at hlen
        obtain ⟨sv, hsv, hmem⟩ := hs2 ss rfl hne
        rw [hsv] at hsrc
        simp at hsrc
        exact hsrc hmem
  · -- sequence restriction violated
    constructor
    · intro h; cases h
    · rintro ⟨-, -, hs3⟩
      exfalso
      cases oa with
      | none => cases h3
      | some n =>
        simp only [decide_eq_true_eq] at h3
        have := hs3 n rfl
        omega
  · -- all restrictions pass
    simp only [true_iff]
    refine ⟨?_, ?_, ?_⟩
    · intro ts hts hne
      subst hts
      by_contra hmem
      apply h1
      simp only [Bool.and_eq_true, decide_eq_true_eq, Bool.not_eq_true']
      refine ⟨List.length_pos.mpr hne, by simpa using hmem⟩
    · intro ss hss hne
      subst hss
      cases hsrc : e.source with
      | none =>
        exfalso
        apply h2
        rw [hsrc]
        simp only [Bool.and_eq_true, decide_eq_true_eq]
        exact ⟨List.length_pos.mpr hne, trivial⟩
      | some sv =>
        refine ⟨sv, rfl, ?_⟩
        by_contra hmem
        apply h2
        rw [hsrc]
        simp only [Bool.and_eq_true, decide_eq_true_eq, Bool.not_eq_true']
        refine ⟨List.length_pos.mpr hne, by simpa using hmem⟩
    · intro n hn
      subst hn
      simp only [decide_eq_true_eq] at h3
      omega

theorem notifyRun_cons (l : Listener) (rest : List Listener) (e : AgentEvent) :
    notifyRun (l :: rest) e =
      if shouldNotify l e then
        (if l.ok then (0 :: (notifyRun rest e).1.map (· + 1), (notifyRun rest e).2)
         else ([0], true))
      else ((notifyRun rest e).1.map (· + 1), (notifyRun rest e).2) := rfl

theorem notifyRun_append_mem : ∀ (pre : List Listener) (l : Listener)
    (post : List Listener) (e : AgentEvent), (∀ x ∈ pre, x.ok = true) →
    (pre.length ∈ (notifyRun (pre ++ l :: post) e).1 ↔ shouldNotify l e = true) := by
  intro pre
  induction pre with
  | nil =>
    intro l post e hok
    show 0 ∈ (notifyRun (l :: post) e).1 ↔ _
    rw [notifyRun_cons]
    by_cases hs : shouldNotify l e
    · rw [if_pos hs]
      by_cases ho : l.ok
      · rw [if_pos ho]
        simp [hs]
      · rw [if_neg ho]
        simp [hs]
    · rw [if_neg hs]
      simp [hs]
  | cons p pre' ih =>
    intro l post e hok
    have hpok : p.ok = true := hok p (by simp)
    have hih := ih l post e (fun x hx => hok x (by simp [hx]))
    show (pre'.length + 1) ∈ (notifyRun (p :: (pre' ++ l :: post)) e).1 ↔ _
    rw [notifyRun_cons]
    by_cases hs : shouldNotify p e
    · rw [if_pos hs, if_pos hpok]
      simp only [List.mem_cons, List.mem_map]
      constructor
      · intro h
        rcases h with h | ⟨j, hj, hj1⟩
        · omega
        · have : j = pre'.length := by omega
          subst this
          exact hih.mp hj
      · intro h
        exact Or.inr ⟨pre'.length, hih.mpr h, rfl⟩
    · rw [if_neg hs]
      simp only [List.mem_map]
      constructor
      · intro ⟨j, hj, hj1⟩
        have : j = pre'.length := by omega
        subst this
        exact hih.mp hj
      · intro h
        exact ⟨pre'.length, hih.mpr h, rfl⟩

theorem emitAll_buffer : ∀ (args : List EmitArgs) (s : AgentEventStream),
    (emitAll s args).1.buffer = rbPushAll s.buffer (emitAll s args).2 := by
  intro args
  induction args with
  | nil => intro s; rfl
  | cons a rest ih =>
    intro s
    show (emitAll (emit s a.ty a.dat a.source a.eid a.ts).state rest).1.buffer = _
    rw [ih]
    rfl

theorem mkAgentEventStream_spec {cfg : Option Nat} {s0 : AgentEventStream}
    (h : mkAgentEventStream cfg = some s0) :
    RBok s0.buffer ∧ s0.buffer.capacity = cfg.getD 1000 ∧ s0.buffer.size = 0 := by
  unfold mkAgentEventStream at h
  cases hrb : mkRingBuffer AgentEvent (cfg.getD 1000) with
  | none => rw [hrb] at h; cases h
  | some rb =>
    rw [hrb] at h
    injection h with h
    subst h
    exact mkRingBuffer_spec hrb

/-- C8: `matchesFilter` realizes exactly the claimed semantics; during
`emit`, a subscriber registered with filter F is called iff F matches the
event (when no callback before it throws); and `getReplay F` is exactly the
buffered events — the last `capacity` emitted ones, in insertion order —
that match F. -/
theorem C8_filter_delivery_replay :
    (∀ (e : AgentEvent) (F : EventFilter),
      matchesFilter e F = true ↔ FilterMatchesSpec e F) ∧
    (∀ (pre post : List Listener) (F : EventFilter) (s : AgentEventStream)
        (ty dat : Nat) (src : Option Nat) (eid ts : Nat),
      s.listeners = pre ++ { filter := some F, ok := true } :: post →
      (∀ x ∈ pre, x.ok = true) →
      (pre.length ∈ (emit s ty dat src eid ts).called ↔
        matchesFilter (emit s ty dat src eid ts).event F = true)) ∧
    (∀ (cap : Nat) (s0 : AgentEventStream) (args : List EmitArgs) (F : EventFilter),
      mkAgentEventStream (some cap) = some s0 →
      getReplay (emitAll s0 args).1 (some F) =
        ((emitAll s0 args).2.drop ((emitAll s0 args).2.length - cap)).filter
          (fun e => matchesFilter e F)) := by
  refine ⟨matchesFilter_iff_spec, ?_, ?_⟩
  · intro pre post F s ty dat src eid ts hls hok
    have e1 : (emit s ty dat src eid ts).called = (notifyRun s.listeners
        { id := eid, type := ty, data := dat, timestamp := ts,
          sequence := s.sequence, source := src }).1 := rfl
    rw [e1, hls]
    exact notifyRun_append_mem pre _ post _ hok
  · intro cap s0 args F hmk
    obtain ⟨hok, hcap, hsz⟩ := mkAgentEventStream_spec hmk
    show ((rbToArray (emitAll s0 args).1.buffer).filter fun e => matchesFilter e F) = _
    rw [emitAll_buffer, rbToArray_pushAll _ _ hok hsz, hcap]
    rfl

/-- Concrete filter: types `[1, 2]`, sequence after 3. -/
def efSeq : EventFilter := { types := some [1, 2], sources := none, afterSequence := some 3 }

/-- Concrete filter: types `[1, 2]` only. -/
def efTypes : EventFilter := { types := some [1, 2], sources := none, afterSequence := none }

/-- Concrete filter: type `1` only. -/
def efType1 : EventFilter := { types := some [1], sources := none, afterSequence := none }

/-- Concrete event of type 1 with sequence 4. -/
def evW : AgentEvent :=
  { id := 0, type := 1, data := 0, timestamp := 0, sequence := 4, source := none }

/-- Concrete stream with one always-matching healthy subscriber. -/
def streamSub : AgentEventStream :=
  subscribe streamW { filter := some efTypes, ok := true }

theorem C8_filter_delivery_replay_witness :
    (matchesFilter evW efSeq = true ↔ FilterMatchesSpec evW efSeq) ∧
    (0 ∈ (emit streamSub 1 0 none 9 9).called ↔
      matchesFilter (emit streamSub 1 0 none 9 9).event efTypes = true) ∧
    getReplay (emitAll streamW argsW).1 (some efType1) =
      ((emitAll streamW argsW).2.drop ((emitAll streamW argsW).2.length - 3)).filter
        (fun e => matchesFilter e efType1) :=
  ⟨C8_filter_delivery_replay.1 evW efSeq,
   C8_filter_delivery_replay.2.1 [] [] efTypes streamSub 1 0 none 9 9 rfl (by simp),
   C8_filter_delivery_replay.2.2 3 streamW argsW efType1 (by decide)⟩

theorem notifyRun_throws : ∀ (pre : List Listener) (l : Listener)
    (post : List Listener) (e : AgentEvent),
    (∀ x ∈ pre, x.ok = true) → l.ok = false → shouldNotify l e = true →
    (notifyRun (pre ++ l :: post) e).2 = true ∧
    ∀ j ∈ (notifyRun (pre ++ l :: post) e).1, j ≤ pre.length := by
  intro pre
  induction pre with
  | nil =>
    intro l post e hok hthrow hmatch
    show (notifyRun (l :: post) e).2 = true ∧
      ∀ j ∈ (notifyRun (l :: post) e).1, j ≤ ([] : List Listener).length
    rw [notifyRun_cons, if_pos hmatch, if_neg (by rw [hthrow]; simp)]
    refine ⟨rfl, ?_⟩
    intro j hj
    simp at hj
    simp [hj]
  | cons p pre' ih =>
    intro l post e hok hthrow hmatch
    have hpok : p.ok = true := hok p (by simp)
    obtain ⟨hth, hcall⟩ := ih l post e (fun x hx => hok x (by simp [hx])) hthrow hmatch
    show (notifyRun (p :: (pre' ++ l :: post)) e).2 = true ∧
      ∀ j ∈ (notifyRun (p :: (pre' ++ l :: post)) e).1, j ≤ (p :: pre').length
    rw [notifyRun_cons]
    by_cases hs : shouldNotify p e
    · rw [if_pos hs, if_pos hpok]
      refine ⟨hth, ?_⟩
      intro j hj
      simp only [List.mem_cons, List.mem_map] at hj
      rcases hj with rfl | ⟨j', hj', rfl⟩
      · simp
      · have := hcall j' hj'
        simp only [List.length_cons]
        omega
    · rw [if_neg hs]
      refine ⟨hth, ?_⟩
      intro j hj
      simp only [List.mem_map] at hj
      obtain ⟨j', hj', rfl⟩ := hj
      have := hcall j' hj'
      simp only [List.length_cons]
      omega

/-- C9, amended: the listener loop in `emit` has no try/catch, so when a
subscriber's callback throws, the exception escapes `emit` and no
subscriber registered after the throwing one is called. -/
theorem C9_throwing_listener_amended :
    ∀ (s : AgentEventStream) (pre : List Listener) (l : Listener)
      (post : List Listener) (ty dat : Nat) (src : Option Nat) (eid ts : Nat),
      s.listeners = pre ++ l :: post →
      (∀ x ∈ pre, x.ok = true) → l.ok = false →
      shouldNotify l (emit s ty dat src eid ts).event = true →
      (emit s ty dat src eid ts).threw = true ∧
      ∀ j ∈ (emit s ty dat src eid ts).called, j ≤ pre.length := by
  intro s pre l post ty dat src eid ts hls hok hthrow hmatch
  have e1 : (emit s ty dat src eid ts).called = (notifyRun s.listeners
      { id := eid, type := ty, data := dat, timestamp := ts,
        sequence := s.sequence, source := src }).1 := rfl
  have e2 : (emit s ty dat src eid ts).threw = (notifyRun s.listeners
      { id := eid, type := ty, data := dat, timestamp := ts,
        sequence := s.sequence, source := src }).2 := rfl
  rw [e1, e2, hls]
  exact notifyRun_throws pre l post _ hok hthrow hmatch

/-- Stream with a throwing first subscriber and a healthy second one, both
with no filter (matching everything). -/
def streamC9 : AgentEventStream :=
  { sequence := 0,
    buffer := (mkRingBuffer AgentEvent 2).getD
      { data := [], head := 0, size := 0, capacity := 0 },
    listeners := [{ filter := none, ok := false }, { filter := none, ok := true }] }

/-- C9, counterexample: the second subscriber's (absent) filter matches the
event, yet it does not receive it, and the exception escapes `emit`. -/
theorem C9_throwing_listener_counterexample :
    shouldNotify { filter := none, ok := true } (emit streamC9 1 0 none 0 0).event = true ∧
    1 ∉ (emit streamC9 1 0 none 0 0).called ∧
    (emit streamC9 1 0 none 0 0).threw = true := by
  refine ⟨rfl, by decide, rfl⟩

theorem C9_throwing_listener_amended_witness :
    (emit streamC9 1 0 none 0 0).threw = true ∧
    ∀ j ∈ (emit streamC9 1 0 none 0 0).called, j ≤ 0 :=
  C9_throwing_listener_amended streamC9 [] { filter := none, ok := false }
    [{ filter := none, ok := true }] 1 0 none 0 0 rfl (by simp) rfl rfl

/-! ## Rate limiter middleware (`packages/a2a/src/middleware.ts`)

Sender identities (`ctx.from`) and request ids are opaque, abstracted as
numbers; `next()`'s response is an explicit argument; the `windows` map is
an association list threaded through the calls. -/

/-- JSON-RPC error object. -/
structure RpcError where
  code : Int
  message : List Nat
  deriving DecidableEq, Repr

/-- JSON-RPC response with the echoed request id. -/
structure RpcResponse where
  id : Nat
  result : Option Nat
  error : Option RpcError
  deriving DecidableEq, Repr

/-- One per-sender window entry `{count, resetAt}`. -/
structure RLEntry where
  count : Nat
  resetAt : Nat
  deriving DecidableEq, Repr

/-- The string `Rate limit exceeded`. -/
def rateLimitMessage : List Nat :=
  [82, 97, 116, 101, 32, 108, 105, 109, 105, 116, 32, 101, 120, 99, 101,
   101, 100, 101, 100]

/-- The short-circuit response `{code: -32029, message, id}`. -/
def rateLimitResponse (reqId : Nat) : RpcResponse :=
  { id := reqId, result := none,
    error := some { code := -32029, message := rateLimitMessage } }

/-- `Map.get`. -/
def rlLookup : List (Nat × RLEntry) → Nat → Option RLEntry
  | [], _ => none
  | (k', v') :: t, k => if k' = k then some v' else rlLookup t k

/-- `Map.set`: replace in place, else append. -/
def rlInsert : List (Nat × RLEntry) → Nat → RLEntry → List (Nat × RLEntry)
  | [], k, v => [(k, v)]
  | (k', v') :: t, k, v =>
    if k' = k then (k, v) :: t else (k', v') :: rlInsert t k v

/-- One request through `rateLimiter({maxRequests, windowMs})`: look up (or
reset) the sender's window, bump the counter, and either short-circuit with
`RATE_LIMIT_EXCEEDED` or invoke `next()`.  Returns the updated map, the
response, and whether `next()` ran. -/
def rateLimiterStep (maxRequests windowMs : Nat) (windows : List (Nat × RLEntry))
    (ctxFrom now reqId : Nat) (nextResponse : RpcResponse) :
    List (Nat × RLEntry) × RpcResponse × Bool :=
  let entry0 : RLEntry :=
    match rlLookup windows ctxFrom with
    | none => { count := 0, resetAt := now + windowMs }
    | some e =>
      if now ≥ e.resetAt then { count := 0, resetAt := now + windowMs } else e
  let entry : RLEntry := { entry0 with count := entry0.count + 1 }
  let windows2 := rlInsert windows ctxFrom entry
  if entry.count > maxRequests then
    (windows2, rateLimitResponse reqId, false)
  else (windows2, nextResponse, true)

/-- One incoming request: sender, arrival time, id, and the response the
rest of the chain would produce. -/
structure RLReq where
  ctxFrom : Nat
  now : Nat
  reqId : Nat
  next : RpcResponse
  deriving DecidableEq, Repr

/-- Run a sequence of requests through the middleware, collecting
`(response, next-invoked?)` per request. -/
def rlRunAll (maxRequests windowMs : Nat) (windows : List (Nat × RLEntry)) :
    List RLReq → List (RpcResponse × Bool)
  | [] => []
  | q :: rest =>
    let r := rateLimiterStep maxRequests windowMs windows q.ctxFrom q.now q.reqId q.next
    (r.2.1, r.2.2) :: rlRunAll maxRequests windowMs r.1 rest

/-- Expected outputs when the window never resets: the k-th request (with k
counting the current count `c`) passes iff `c + 1 ≤ maxRequests`. -/
def rlExpected (maxRequests : Nat) : Nat → List RLReq → List (RpcResponse × Bool)
  | _, [] => []
  | c, q :: rest =>
    (if c + 1 > maxRequests then (rateLimitResponse q.reqId, false) else (q.next, true))
      :: rlExpected maxRequests (c + 1) rest

theorem rlRunAll_cons (R W : Nat) (ws : List (Nat × RLEntry)) (q : RLReq)
    (rest : List RLReq) :
    rlRunAll R W ws (q :: rest) =
      ((rateLimiterStep R W ws q.ctxFrom q.now q.reqId q.next).2.1,
       (rateLimiterStep R W ws q.ctxFrom q.now q.reqId q.next).2.2) ::
      rlRunAll R W (rateLimiterStep R W ws q.ctxFrom q.now q.reqId q.next).1 rest :=
  rfl

theorem rlExpected_cons (R c : Nat) (q : RLReq) (rest : List RLReq) :
    rlExpected R c (q :: rest) =
      (if c + 1 > R then (rateLimitResponse q.reqId, false) else (q.next, true))
        :: rlExpected R (c + 1) rest :=
  rfl

theorem rateLimiterStep_entry (R W key t0 c now reqId : Nat) (nr : RpcResponse)
    (ht : now < t0 + W) :
    rateLimiterStep R W [(key, { count := c, resetAt := t0 + W })] key now reqId nr =
      ([(key, { count := c + 1, resetAt := t0 + W })],
       if c + 1 > R then (rateLimitResponse reqId, false) else (nr, true)) := by
  have hge : ¬ now ≥ t0 + W := by omega
  simp only [rateLimiterStep, rlLookup, rlInsert, eq_self_iff_true, if_true]
  rw [if_neg hge]
  by_cases hover : c + 1 > R
  · rw [if_pos hover, if_pos hover]
  · rw [if_neg hover, if_neg hover]

theorem rateLimiterStep_fresh (R W key now reqId : Nat) (nr : RpcResponse) :
    rateLimiterStep R W [] key now reqId nr =
      ([(key, { count := 1, resetAt := now + W })],
       if 1 > R then (rateLimitResponse reqId, false) else (nr, true)) := by
  simp only [rateLimiterStep, rlLookup, rlInsert]
  rw [Nat.zero_add]
  by_cases hover : 1 > R
  · rw [if_pos hover, if_pos hover]
  · rw [if_neg hover, if_neg hover]

theorem rlRunAll_entry : ∀ (reqs : List RLReq) (R W key t0 c : Nat),
    (∀ q ∈ reqs, q.ctxFrom = key) → (∀ q ∈ reqs, q.now < t0 + W) →
    rlRunAll R W [(key, { count := c, resetAt := t0 + W })] reqs =
      rlExpected R c reqs := by
  intro reqs
  induction reqs with
  | nil => intro R W key t0 c hkey htime; rfl
  | cons q rest ih =>
    intro R W key t0 c hkey htime
    have hk : q.ctxFrom = key := hkey q (by simp)
    have ht : q.now < t0 + W := htime q (by simp)
    rw [rlRunAll_cons, hk, rateLimiterStep_entry R W key t0 c q.now q.reqId q.next ht,
      rlExpected_cons]
    show (if c + 1 > R then (rateLimitResponse q.reqId, false) else (q.next, true)) ::
        rlRunAll R W [(key, { count := c + 1, resetAt := t0 + W })] rest =
      (if c + 1 > R then (rateLimitResponse q.reqId, false) else (q.next, true)) ::
        rlExpected R (c + 1) rest
    rw [ih R W key t0 (c + 1) (fun x hx => hkey x (by simp [hx]))
      (fun x hx => htime x (by simp [hx]))]

theorem rlRunAll_fresh (q0 : RLReq) (rest : List RLReq) (R W : Nat)
    (hkey : ∀ q ∈ rest, q.ctxFrom = q0.ctxFrom)
    (htime : ∀ q ∈ rest, q.now < q0.now + W) :
    rlRunAll R W [] (q0 :: rest) = rlExpected R 0 (q0 :: rest) := by
  rw [rlRunAll_cons, rateLimiterStep_fresh R W q0.ctxFrom q0.now q0.reqId q0.next,
    rlExpected_cons]
  show (if 1 > R then (rateLimitResponse q0.reqId, false) else (q0.next, true)) ::
      rlRunAll R W [(q0.ctxFrom, { count := 1, resetAt := q0.now + W })] rest =
    (if 0 + 1 > R then (rateLimitResponse q0.reqId, false) else (q0.next, true)) ::
      rlExpected R (0 + 1) rest
  rw [rlRunAll_entry rest R W q0.ctxFrom q0.now 1 hkey htime]

theorem rlExpected_getD : ∀ (reqs : List RLReq) (R c i : Nat) (dq : RLReq)
    (d2 : RpcResponse × Bool), i < reqs.length →
    (rlExpected R c reqs).getD i d2 =
      (if c + i + 1 > R then (rateLimitResponse (reqs.getD i dq).reqId, false)
       else ((reqs.getD i dq).next, true)) := by
  intro reqs
  induction reqs with
  | nil => intro R c i dq d2 h; simp at h
  | cons q rest ih =>
    intro R c i dq d2 h
    cases i with
    | zero =>
      show ((if c + 1 > R then _ else _) :: _).getD 0 d2 = _
      simp [List.getD]
    | succ j =>
      have hj : j < rest.length := by
        simp at h
        omega
      show ((if c + 1 > R then _ else _) :: rlExpected R (c + 1) rest).getD (j + 1) d2 = _
      have e1 : ∀ (x : RpcResponse × Bool) (l : List (RpcResponse × Bool)),
          (x :: l).getD (j + 1) d2 = l.getD j d2 := by
        intro x l
        simp [List.getD]
      rw [e1, ih R (c + 1) j dq d2 hj]
      have e2 : (q :: rest).getD (j + 1) dq = rest.getD j dq := by
        simp [List.getD]
      rw [e2]
      have e3 : c + 1 + j + 1 = c + (j + 1) + 1 := by omega
      rw [e3]

/-- Fallback request/output values (used only for indexed access). -/
def defaultRLReq : RLReq :=
  { ctxFrom := 0, now := 0, reqId := 0,
    next := { id := 0, result := none, error := none } }

def defaultRLOut : RpcResponse × Bool :=
  ({ id := 0, result := none, error := none }, false)

/-- C10: starting from a fresh `rateLimiter({maxRequests := R, windowMs := W})`,
for R+1 requests from the same sender all arriving within one window of the
first, each of the first R requests invokes `next()` and returns its
response, and request R+1 does not invoke `next()` and returns the error
response with code -32029 and that request's id. -/
theorem C10_rate_limit :
    ∀ (R W : Nat) (q0 : RLReq) (rest : List RLReq),
      (∀ q ∈ rest, q.ctxFrom = q0.ctxFrom) →
      (∀ q ∈ rest, q.now < q0.now + W) →
      (q0 :: rest).length = R + 1 →
      (rlRunAll R W [] (q0 :: rest)).length = R + 1 ∧
      (∀ i, i < R →
        (rlRunAll R W [] (q0 :: rest)).getD i defaultRLOut =
          (((q0 :: rest).getD i defaultRLReq).next, true)) ∧
      (rlRunAll R W [] (q0 :: rest)).getD R defaultRLOut =
        (rateLimitResponse (((q0 :: rest).getD R defaultRLReq).reqId), false) := by
  intro R W q0 rest hkey htime hlen
  have hrun := rlRunAll_fresh q0 rest R W hkey htime
  have hexplen : ∀ (reqs : List RLReq) (c : Nat),
      (rlExpected R c reqs).length = reqs.length := by
    intro reqs
    induction reqs with
    | nil => intro c; rfl
    | cons q t ih =>
      intro c
      show ((if c + 1 > R then _ else _) :: rlExpected R (c + 1) t).length = _
      rw [List.length_cons, ih (c + 1), List.length_cons]
  refine ⟨by rw [hrun, hexplen, hlen], ?_, ?_⟩
  · intro i hi
    rw [hrun, rlExpected_getD (q0 :: rest) R 0 i defaultRLReq defaultRLOut (by omega)]
    rw [if_neg (by omega)]
  · rw [hrun, rlExpected_getD (q0 :: rest) R 0 R defaultRLReq defaultRLOut (by omega)]
    rw [if_pos (by omega)]

/-- Concrete run: `maxRequests = 2`, `windowMs = 10000`, three quick
requests from the same sender (spec scenario S8). -/
def rlReqsW : List RLReq :=
  [{ ctxFrom := 5, now := 1000, reqId := 11,
     next := { id := 11, result := some 1, error := none } },
   { ctxFrom := 5, now := 1500, reqId := 12,
     next := { id := 12, result := some 2, error := none } },
   { ctxFrom := 5, now := 2000, reqId := 13,
     next := { id := 13, result := some 3, error := none } }]

theorem C10_rate_limit_witness :
    (rlRunAll 2 10000 [] rlReqsW).length = 3 ∧
    (∀ i, i < 2 → (rlRunAll 2 10000 [] rlReqsW).getD i defaultRLOut =
      ((rlReqsW.getD i defaultRLReq).next, true)) ∧
    (rlRunAll 2 10000 [] rlReqsW).getD 2 defaultRLOut =
      (rateLimitResponse ((rlReqsW.getD 2 defaultRLReq).reqId), false) := by
  have h := C10_rate_limit 2 10000
    { ctxFrom := 5, now := 1000, reqId := 11,
      next := { id := 11, result := some 1, error := none } }
    (rlReqsW.drop 1) (by decide) (by decide) (by decide)
  exact h

end Qualia
